import Mathlib

/-!
# J2 DAG lowering (`lib/Target/J2/J2ISelLowering.cpp`)

A shallow embedding of the lowering routines of the J2 backend:
`LowerOperation`, `LowerGlobalAddress`, `LowerConstantPool`, `LowerShift`,
`LowerFormalArguments`, `LowerReturn`, `LowerCall` and
`EmitInstrWithCustomInserter`.

Selection-DAG values are modelled as terms: an `SDValue` is either the null
value or a result number of a node, and a node is its opcode, its
class-specific payload, its result types and its operand list.  Two terms are
equal exactly when they denote the same (CSE-identical) node.  Fatal exits
(`llvm_unreachable`, a failing `assert`, as in a build with assertions enabled)
are modelled by `Except Fatal`.  Shift amounts are `i32` constants, so the
`int64_t` arithmetic on `Shift` never overflows and is modelled on `Int`.
-/

set_option linter.unusedVariables false

namespace J2

/-! ## Data model -/

/-- Fatal exits of the lowering code. -/
inductive Fatal where
  /-- Result of reaching `llvm_unreachable(msg)`. -/
  | unreachable (msg : String)
  /-- Result of a failing `assert(cond && msg)`. -/
  | assertion (msg : String)
  deriving DecidableEq, Repr

/-- Machine value types (the ones the lowering code mentions, and the rest). -/
inductive MVT where
  | Other
  | Glue
  | i32
  | simple (n : Nat)
  deriving DecidableEq, Repr

namespace ISD

/-- Target-independent node opcodes used by the lowering code; every other
generic opcode is `generic n`. -/
inductive NodeType where
  | EntryToken
  | UNDEF
  | Constant
  | TargetConstant
  | GlobalAddress
  | GlobalTLSAddress
  | TargetGlobalAddress
  | TargetGlobalTLSAddress
  | ConstantPool
  | TargetConstantPool
  | ExternalSymbol
  | TargetExternalSymbol
  | Register
  | CopyToReg
  | CopyFromReg
  | LOAD
  | SHL
  | SRL
  | generic (n : Nat)
  deriving DecidableEq, Repr

end ISD

namespace J2ISD

/-- Target-specific node opcodes (the cases of `getTargetNodeName`). -/
inductive NodeType where
  | FIRST_NUMBER
  | Ret
  | Call
  | Wrapper
  | SHL
  | SRL
  deriving DecidableEq, Repr

end J2ISD

/-- Opcode of a node: a generic one or a J2 one. -/
inductive Opcode where
  | isd (o : ISD.NodeType)
  | j2 (o : J2ISD.NodeType)
  deriving DecidableEq, Repr

/-- Global symbol, identified by its name. -/
structure GlobalValue where
  Name : String
  deriving DecidableEq, Repr

/-- Modelled from the spec: `J2ConstantPoolValue.h` is not among the sources;
the spec describes the entry as "a constant-pool entry wrapping the symbol". -/
structure J2ConstantPoolValue where
  GV : GlobalValue
  deriving DecidableEq, Repr

/-- Modelled from the spec: `J2ConstantPoolValue::Create(GV)` wraps the symbol. -/
def J2ConstantPoolValue.Create (GV : GlobalValue) : J2ConstantPoolValue := ⟨GV⟩

/-- What a constant-pool node refers to: a target-specific machine entry, or an
ordinary constant (here: its integer value). -/
inductive CPVal where
  | MachineCPVal (v : J2ConstantPoolValue)
  | ConstVal (c : Int)
  deriving DecidableEq, Repr

/-- Provenance of a memory access (`MachinePointerInfo`). -/
inductive MachinePointerInfo where
  | unknown
  | ConstantPool
  deriving DecidableEq, Repr

/-- Class-specific payload of a node (`ConstantSDNode`, `RegisterSDNode`, ...).
In LLVM the payload kind is fixed by the node class. -/
inductive NodeData where
  | none
  /-- Payload of `ConstantSDNode`: the value, sign-extended. -/
  | const (v : Int)
  /-- Payload of `RegisterSDNode`: the register number. -/
  | reg (r : Nat)
  /-- Payload of `GlobalAddressSDNode`. -/
  | global (gv : GlobalValue)
  /-- Payload of `ExternalSymbolSDNode`. -/
  | symbol (s : String)
  /-- Payload of `ConstantPoolSDNode`: the entry and its alignment. -/
  | cp (v : CPVal) (align : Nat)
  /-- Payload of `LoadSDNode`: pointer info and alignment of the memory operand. -/
  | mem (info : MachinePointerInfo) (align : Nat)
  deriving DecidableEq, Repr

/-- An `SDValue`: null, or result number `resNo` of the node given by opcode,
payload, result types and operands. -/
inductive SDValue where
  | null : SDValue
  | mk (opc : Opcode) (data : NodeData) (vts : List MVT) (ops : List SDValue)
      (resNo : Nat) : SDValue
  deriving Repr

namespace SDValue

/-- Truth value of `V.getNode()` used as a condition. -/
def hasNode : SDValue → Bool
  | null => false
  | mk _ _ _ _ _ => true

/-- Accessor `V.getOpcode()`. -/
def getOpcode : SDValue → Option Opcode
  | null => none
  | mk o _ _ _ _ => some o

/-- Accessor `V.getValue(R)`: result `R` of the same node. -/
def getValue : SDValue → Nat → SDValue
  | null, _ => null
  | mk o d vts ops _, R => mk o d vts ops R

/-- Accessor `V.getOperand(i)` (null when the node has no operand `i`). -/
def getOperand : SDValue → Nat → SDValue
  | null, _ => null
  | mk _ _ _ ops _, i => ops.getD i null

/-- The operand list of the node. -/
def operands : SDValue → List SDValue
  | null => []
  | mk _ _ _ ops _ => ops

/-- Accessor `V.getValueType()`: the type of the selected result. -/
def getValueType : SDValue → MVT
  | null => MVT.Other
  | mk _ _ vts _ r => vts.getD r MVT.Other

/-- Payload of the node. -/
def getData : SDValue → NodeData
  | null => NodeData.none
  | mk _ d _ _ _ => d

end SDValue

/-- Test `isa<ConstantSDNode>` (its `classof` looks at the opcode). -/
def isaConstantSDNode (V : SDValue) : Bool :=
  V.getOpcode = some (.isd .Constant) || V.getOpcode = some (.isd .TargetConstant)

/-- Test `isa<GlobalAddressSDNode>`. -/
def isaGlobalAddressSDNode (V : SDValue) : Bool :=
  V.getOpcode = some (.isd .GlobalAddress) || V.getOpcode = some (.isd .TargetGlobalAddress)
    || V.getOpcode = some (.isd .GlobalTLSAddress)
    || V.getOpcode = some (.isd .TargetGlobalTLSAddress)

/-- Test `isa<ExternalSymbolSDNode>`. -/
def isaExternalSymbolSDNode (V : SDValue) : Bool :=
  V.getOpcode = some (.isd .ExternalSymbol) || V.getOpcode = some (.isd .TargetExternalSymbol)

/-- Test `isa<ConstantPoolSDNode>`. -/
def isaConstantPoolSDNode (V : SDValue) : Bool :=
  V.getOpcode = some (.isd .ConstantPool) || V.getOpcode = some (.isd .TargetConstantPool)

/-- Accessor `ConstantSDNode::getSExtValue`. -/
def getSExtValue (V : SDValue) : Int :=
  match V.getData with
  | .const v => v
  | _ => 0

/-- Accessor `GlobalAddressSDNode::getGlobal`. -/
def getGlobal (V : SDValue) : GlobalValue :=
  match V.getData with
  | .global gv => gv
  | _ => ⟨""⟩

/-- Accessor `ExternalSymbolSDNode::getSymbol`. -/
def getSymbol (V : SDValue) : String :=
  match V.getData with
  | .symbol s => s
  | _ => ""

/-- The `dyn_cast<ConstantSDNode>(V)` followed by `getSExtValue()`. -/
def dynCastConstant (V : SDValue) : Option Int :=
  if isaConstantSDNode V then some (getSExtValue V) else none

/-! ## The `SelectionDAG` node builders used by the lowering code -/

namespace DAG

/-- Builder `DAG.getNode(Opcode, DL, VT, N1, N2)` for a J2 opcode: target
opcodes are never folded, the node is built as given. -/
def getNode2 (Opcode : J2ISD.NodeType) (VT : MVT) (N1 N2 : SDValue) : SDValue :=
  .mk (.j2 Opcode) .none [VT] [N1, N2] 0

/-- Builder `DAG.getNode(Opcode, DL, VT, N)` for a J2 opcode. -/
def getNode1 (Opcode : J2ISD.NodeType) (VT : MVT) (N : SDValue) : SDValue :=
  .mk (.j2 Opcode) .none [VT] [N] 0

/-- Builder `DAG.getNode(Opcode, DL, VTs, Ops)` for a J2 opcode. -/
def getNodeOps (Opcode : J2ISD.NodeType) (VTs : List MVT) (Ops : List SDValue) : SDValue :=
  .mk (.j2 Opcode) .none VTs Ops 0

/-- Builder `DAG.getConstant(Val, DL, VT)`. -/
def getConstant (Val : Int) (VT : MVT) : SDValue :=
  .mk (.isd .Constant) (.const Val) [VT] [] 0

/-- Builder `DAG.getRegister(Reg, VT)`. -/
def getRegister (Reg : Nat) (VT : MVT) : SDValue :=
  .mk (.isd .Register) (.reg Reg) [VT] [] 0

/-- Builder `DAG.getEntryNode()`. -/
def getEntryNode : SDValue :=
  .mk (.isd .EntryToken) .none [MVT.Other] [] 0

/-- Builder `DAG.getUNDEF(VT)`. -/
def getUNDEF (VT : MVT) : SDValue :=
  .mk (.isd .UNDEF) .none [VT] [] 0

/-- Builder `DAG.getCopyToReg(Chain, DL, Reg, N, Glue)`: results (chain, glue);
the glue operand is passed only when `Glue` has a node. -/
def getCopyToReg (Chain : SDValue) (Reg : Nat) (N Glue : SDValue) : SDValue :=
  .mk (.isd .CopyToReg) .none [MVT.Other, MVT.Glue]
    ([Chain, getRegister Reg N.getValueType, N] ++ (if Glue.hasNode then [Glue] else [])) 0

/-- Builder `DAG.getCopyFromReg(Chain, DL, Reg, VT)`: results (value, chain). -/
def getCopyFromReg (Chain : SDValue) (Reg : Nat) (VT : MVT) : SDValue :=
  .mk (.isd .CopyFromReg) .none [VT, MVT.Other] [Chain, getRegister Reg VT] 0

/-- Builder `DAG.getCopyFromReg(Chain, DL, Reg, VT, Glue)`: results
(value, chain, glue); the glue operand is passed only when `Glue` has a node. -/
def getCopyFromRegGlue (Chain : SDValue) (Reg : Nat) (VT : MVT) (Glue : SDValue) : SDValue :=
  .mk (.isd .CopyFromReg) .none [VT, MVT.Other, MVT.Glue]
    ([Chain, getRegister Reg VT] ++ (if Glue.hasNode then [Glue] else [])) 0

/-- Builder `DAG.getTargetConstantPool(C, VT, Align)`. -/
def getTargetConstantPool (C : CPVal) (VT : MVT) (Align : Nat) : SDValue :=
  .mk (.isd .TargetConstantPool) (.cp C Align) [VT] [] 0

/-- Builder `DAG.getTargetExternalSymbol(Sym, VT)`. -/
def getTargetExternalSymbol (Sym : String) (VT : MVT) : SDValue :=
  .mk (.isd .TargetExternalSymbol) (.symbol Sym) [VT] [] 0

/-- Builder `DAG.getLoad(VT, DL, Chain, Ptr, PtrInfo, Alignment)`: an unindexed
load with results (value, chain) and operands (chain, pointer, undef offset). -/
def getLoad (VT : MVT) (Chain Ptr : SDValue) (PtrInfo : MachinePointerInfo)
    (Alignment : Nat) : SDValue :=
  .mk (.isd .LOAD) (.mem PtrInfo Alignment) [VT, MVT.Other]
    [Chain, Ptr, getUNDEF Ptr.getValueType] 0

end DAG

/-! ## `LowerShift` -/

/-- The table `Ls` of `LowerShift`. -/
def Ls : List Int := [16, 8, 2, 1]

/-- The lambda `InitShift` of `LowerShift`, applied to the current `Shift`:
returns the `uint8_t` result and the updated `Shift`. -/
def InitShift (Shift : Int) : Int × Int :=
  if Shift = 0 ∨ Shift ∈ Ls then
    (Shift % 256, 0)
  else if Shift.tmod 2 = 0 then
    (2, Shift - 2)
  else
    (1, Shift - 1)

/-- The `while (Shift != 0)` loop of `LowerShift`, from the state
`(Shift, CurrentSize, Res)`; `Ls[CurrentSize]` is read after the bound
assertion, where `Ls.getD CurrentSize 0` is that element. -/
def LowerShift.loop (Opcode : J2ISD.NodeType) (Shift : Int) (CurrentSize : Nat)
    (Res : SDValue) : Except Fatal SDValue :=
  if Shift = 0 then
    .ok Res
  else if h : CurrentSize < Ls.length then
    if Shift - Ls.getD CurrentSize 0 ≥ 0 then
      LowerShift.loop Opcode (Shift - Ls.getD CurrentSize 0) CurrentSize
        (DAG.getNode2 Opcode MVT.i32 Res (DAG.getConstant (Ls.getD CurrentSize 0) MVT.i32))
    else
      LowerShift.loop Opcode Shift (CurrentSize + 1) Res
  else
    .error (.assertion "Array out of bounds.")
termination_by Shift.toNat + (Ls.length - CurrentSize)
decreasing_by
  · have hp : 0 < Ls.getD CurrentSize 0 := by
      have h4 : CurrentSize < 4 := h
      interval_cases CurrentSize <;> decide
    omega
  · omega

/-- The template `LowerShift<Opcode>(Op, DAG)`. -/
def LowerShift (Opcode : J2ISD.NodeType) (Op : SDValue) : Except Fatal SDValue :=
  let LHS := Op.getOperand 0
  let RHS := Op.getOperand 1
  match dynCastConstant RHS with
  | some Shift =>
    let Init := InitShift Shift
    let Res := DAG.getNode2 Opcode MVT.i32 LHS (DAG.getConstant Init.1 MVT.i32)
    LowerShift.loop Opcode Init.2 0 Res
  | none => .error (.unreachable "Shift with no constants.")

/-! ## Target configuration and machine function state -/

/-- Register classes of the target: the constructor of `J2TargetLowering`
registers `GPRRegClass` for `MVT::i32` and nothing else. -/
inductive TargetRegisterClass where
  | GPRRegClass
  deriving DecidableEq, Repr

/-- Lookup `getRegClassFor(VT)`: the class registered for `VT`; LLVM asserts that
there is one. -/
def getRegClassFor (VT : MVT) : Except Fatal TargetRegisterClass :=
  if VT = MVT.i32 then .ok .GPRRegClass
  else .error (.assertion "This value type is not natively supported!")

/-- A location assigned by the calling-convention analysis (`CCValAssign`):
a register or a memory (stack) slot, with the value and location types. -/
structure CCValAssign where
  isMem : Bool
  Loc : Nat
  ValVT : MVT
  LocVT : MVT
  deriving DecidableEq, Repr

namespace CCValAssign

/-- Accessor `VA.isRegLoc()`. -/
def isRegLoc (VA : CCValAssign) : Bool := !VA.isMem

/-- Accessor `VA.getLocReg()`, which asserts `isRegLoc()`. -/
def getLocReg (VA : CCValAssign) : Except Fatal Nat :=
  if VA.isRegLoc then .ok VA.Loc else .error (.assertion "isRegLoc()")

/-- Accessor `VA.getLocVT()`. -/
def getLocVT (VA : CCValAssign) : MVT := VA.LocVT

/-- Accessor `VA.getValVT()`. -/
def getValVT (VA : CCValAssign) : MVT := VA.ValVT

end CCValAssign

/-- The part of `MachineFunction` (its `MachineRegisterInfo`) that lowering
touches: the live-in pairs (physical, virtual) in insertion order and the
classes of the virtual registers created so far. -/
structure MachineFunction where
  LiveIns : List (Nat × Nat)
  VRegs : List TargetRegisterClass
  deriving DecidableEq, Repr

namespace MachineFunction

/-- Lookup `MRI.getLiveInVirtReg(PReg)`: the virtual register of the first
live-in pair for `PReg`, or 0. -/
def getLiveInVirtReg (MF : MachineFunction) (PReg : Nat) : Nat :=
  match MF.LiveIns.find? (fun p => p.1 == PReg) with
  | some p => p.2
  | none => 0

/-- Update `MF.addLiveIn(PReg, RC)`: reuse the virtual register already bound to
`PReg`, or create virtual register number `2^31 + index` and record the pair.
(The class check on reuse is void: the target has a single register class.) -/
def addLiveIn (MF : MachineFunction) (PReg : Nat) (RC : TargetRegisterClass) :
    Nat × MachineFunction :=
  let VReg := MF.getLiveInVirtReg PReg
  if VReg ≠ 0 then
    (VReg, MF)
  else
    let VReg := 2 ^ 31 + MF.VRegs.length
    (VReg, ⟨MF.LiveIns ++ [(PReg, VReg)], MF.VRegs ++ [RC]⟩)

end MachineFunction

/-- What the lowering code reads from the `SelectionDAG`: the pointer type of
the data layout and the machine function. -/
structure SelectionDAG where
  PointerTy : MVT
  MF : MachineFunction
  deriving DecidableEq, Repr

/-! ## `LowerGlobalAddress`, `LowerConstantPool`, `LowerOperation` -/

/-- The function `LowerGlobalAddress(Op, DAG)`; `cast<GlobalAddressSDNode>`
asserts the node class. -/
def LowerGlobalAddress (PtrVT : MVT) (Op : SDValue) : Except Fatal SDValue :=
  if isaGlobalAddressSDNode Op then
    let GV := getGlobal Op
    let CPV := J2ConstantPoolValue.Create GV
    let CP := DAG.getTargetConstantPool (.MachineCPVal CPV) PtrVT 2
    let CP := DAG.getNode1 .Wrapper MVT.i32 CP
    .ok (DAG.getLoad PtrVT DAG.getEntryNode CP MachinePointerInfo.ConstantPool 4)
  else
    .error (.assertion "cast<Ty>() argument of incompatible type!")

/-- The function `LowerConstantPool(Op, DAG)`; the node alignment is passed on. -/
def LowerConstantPool (Op : SDValue) : Except Fatal SDValue :=
  let PtrVT := Op.getValueType
  if isaConstantPoolSDNode Op then
    match Op.getData with
    | .cp (.MachineCPVal v) align =>
      .ok (DAG.getNode1 .Wrapper MVT.i32 (DAG.getTargetConstantPool (.MachineCPVal v) PtrVT align))
    | .cp (.ConstVal c) align =>
      .ok (DAG.getNode1 .Wrapper MVT.i32 (DAG.getTargetConstantPool (.ConstVal c) PtrVT align))
    | _ => .error (.assertion "cast<Ty>() argument of incompatible type!")
  else
    .error (.assertion "cast<Ty>() argument of incompatible type!")

/-- The function `LowerOperation(Op, DAG)`. -/
def LowerOperation (D : SelectionDAG) (Op : SDValue) : Except Fatal SDValue :=
  match Op.getOpcode with
  | some (.isd .GlobalAddress) => LowerGlobalAddress D.PointerTy Op
  | some (.isd .ConstantPool) => LowerConstantPool Op
  | some (.isd .SHL) => LowerShift .SHL Op
  | some (.isd .SRL) => LowerShift .SRL Op
  | _ => .error (.unreachable "unimplemented operation")

/-! ## `LowerFormalArguments` -/

/-- The `for` loop of `LowerFormalArguments` over the remaining `ArgLocs`. -/
def LowerFormalArguments.loop (Chain : SDValue) :
    List CCValAssign → MachineFunction → List SDValue →
      Except Fatal (MachineFunction × List SDValue)
  | [], MF, InVals => .ok (MF, InVals)
  | VA :: rest, MF, InVals => do
    let RegVT := VA.getLocVT
    let RC ← getRegClassFor RegVT
    let PReg ← VA.getLocReg
    let R := MF.addLiveIn PReg RC
    let ArgValue := DAG.getCopyFromReg Chain R.1 RegVT
    LowerFormalArguments.loop Chain rest R.2 (InVals ++ [ArgValue])

/-- The function `LowerFormalArguments`; `ArgLocs` is what
`AnalyzeFormalArguments(Ins, CC_J2)` assigned.  Returns the chain, the updated
DAG (machine function) and the extended `InVals`. -/
def LowerFormalArguments (Chain : SDValue) (IsVarArg : Bool) (ArgLocs : List CCValAssign)
    (D : SelectionDAG) (InVals : List SDValue) :
    Except Fatal (SDValue × SelectionDAG × List SDValue) :=
  if IsVarArg then
    .error (.assertion "Variable arguments not supported.")
  else do
    let R ← LowerFormalArguments.loop Chain ArgLocs D.MF InVals
    .ok (Chain, ⟨D.PointerTy, R.1⟩, R.2)

/-! ## `LowerReturn` -/

/-- Loop state of `LowerReturn`. -/
structure RetState where
  Chain : SDValue
  Glue : SDValue
  RetOps : List SDValue

/-- The `for` loop of `LowerReturn` over the remaining `RVLocs`, at index `i`;
`OutVals[i]` asserts the index. -/
def LowerReturn.loop (OutVals : List SDValue) :
    List CCValAssign → Nat → RetState → Except Fatal RetState
  | [], _, S => .ok S
  | VA :: rest, i, S =>
    if VA.isRegLoc then
      match OutVals[i]? with
      | some ValToCopy => do
        let Reg ← VA.getLocReg
        let Chain := DAG.getCopyToReg S.Chain Reg ValToCopy S.Glue
        let Glue := Chain.getValue 1
        LowerReturn.loop OutVals rest (i + 1)
          ⟨Chain, Glue, S.RetOps ++ [DAG.getRegister Reg VA.getLocVT]⟩
      | none => .error (.assertion "idx < size()")
    else
      .error (.assertion "Return in memory is not supported!")

/-- The function `LowerReturn`; `RVLocs` is what `AnalyzeReturn(Outs, RetCC_J2)`
assigned. -/
def LowerReturn (Chain : SDValue) (isVarArg : Bool) (RVLocs : List CCValAssign)
    (OutVals : List SDValue) : Except Fatal SDValue :=
  if isVarArg then
    .error (.assertion "Variable arguments not supported.")
  else do
    let S ← LowerReturn.loop OutVals RVLocs 0 ⟨Chain, SDValue.null, [Chain]⟩
    let RetOps := S.RetOps.set 0 S.Chain
    let RetOps := if S.Glue.hasNode then RetOps ++ [S.Glue] else RetOps
    .ok (DAG.getNodeOps .Ret [MVT.Other] RetOps)

/-! ## `LowerCall` -/

/-- The fields of `CallLoweringInfo` that `LowerCall` uses. -/
structure CallLoweringInfo where
  Chain : SDValue
  Callee : SDValue
  IsVarArg : Bool
  IsTailCall : Bool
  OutVals : List SDValue

/-- Loop state of the argument loop of `LowerCall`. -/
structure CallState where
  Chain : SDValue
  Glue : SDValue
  RegsToPass : List (Nat × SDValue)
  Callee : SDValue

/-- The callee update at the end of the body of the argument loop. -/
def LowerCall.updateCallee (PtrVT : MVT) (Callee : SDValue) : Except Fatal SDValue :=
  if isaGlobalAddressSDNode Callee then
    LowerGlobalAddress PtrVT Callee
  else if isaExternalSymbolSDNode Callee then
    .ok (DAG.getTargetExternalSymbol (getSymbol Callee) MVT.i32)
  else
    .ok Callee

/-- The argument loop of `LowerCall` over the remaining `ArgLocs`, at index `i`. -/
def LowerCall.argLoop (PtrVT : MVT) (OutVals : List SDValue) :
    List CCValAssign → Nat → CallState → Except Fatal CallState
  | [], _, S => .ok S
  | VA :: rest, i, S =>
    match OutVals[i]? with
    | some Arg => do
      let S1 ←
        if VA.isRegLoc then do
          let Reg ← VA.getLocReg
          let Chain := DAG.getCopyToReg S.Chain Reg Arg S.Glue
          let Glue := Chain.getValue 1
          pure (⟨Chain, Glue, S.RegsToPass ++ [(Reg, Arg)], S.Callee⟩ : CallState)
        else
          pure S
      let Callee ← LowerCall.updateCallee PtrVT S1.Callee
      LowerCall.argLoop PtrVT OutVals rest (i + 1) ⟨S1.Chain, S1.Glue, S1.RegsToPass, Callee⟩
    | none => .error (.assertion "idx < size()")

/-- The first part of `LowerCall`, up to and including the creation of the
`J2ISD::Call` node: returns that node (its chain result). -/
def LowerCall.callNode (D : SelectionDAG) (CLI : CallLoweringInfo)
    (ArgLocs : List CCValAssign) : Except Fatal SDValue :=
  if CLI.IsVarArg then
    .error (.assertion "Variable arguments not supported.")
  else do
    let S ← LowerCall.argLoop D.PointerTy CLI.OutVals ArgLocs 0
      ⟨CLI.Chain, SDValue.null, [], CLI.Callee⟩
    let Ops := [S.Chain, S.Callee] ++
      S.RegsToPass.map (fun elt => DAG.getRegister elt.1 elt.2.getValueType)
    let Ops := if S.Glue.hasNode then Ops ++ [S.Glue] else Ops
    .ok (DAG.getNodeOps .Call [MVT.Other, MVT.Glue] Ops)

/-- The return-value loop of `LowerCall` over the remaining `RVLocs`. -/
def LowerCall.resultLoop :
    List CCValAssign → SDValue → SDValue → List SDValue →
      Except Fatal (SDValue × List SDValue)
  | [], Chain, _, InVals => .ok (Chain, InVals)
  | Loc :: rest, Chain, Glue, InVals => do
    let Reg ← Loc.getLocReg
    let RetValue := DAG.getCopyFromRegGlue Chain Reg Loc.getValVT Glue
    let Chain := RetValue.getValue 1
    let Glue := RetValue.getValue 2
    LowerCall.resultLoop rest Chain Glue (InVals ++ [Chain.getValue 0])

/-- What `LowerCall` leaves behind: the returned chain, the extended `InVals`
and the `IsTailCall` flag of `CLI`. -/
structure CallResult where
  Chain : SDValue
  InVals : List SDValue
  IsTailCall : Bool

/-- The function `LowerCall`; `ArgLocs` is what `AnalyzeCallOperands(Outs, CC_J2)`
assigned and `RVLocs` what `AnalyzeCallResult(Ins, RetCC_J2)` assigned. -/
def LowerCall (D : SelectionDAG) (CLI : CallLoweringInfo) (ArgLocs RVLocs : List CCValAssign)
    (InVals : List SDValue) : Except Fatal CallResult := do
  let Chain ← LowerCall.callNode D CLI ArgLocs
  let Glue := Chain.getValue 1
  let R ← LowerCall.resultLoop RVLocs Chain Glue InVals
  .ok ⟨R.1, R.2, false⟩

/-! ## The decomposition plan as the specification words it -/

/-- Greedy decomposition of `r` over the magnitudes `ms` in order: each
magnitude is taken as many times as it fits, then the next one is tried. -/
def greedy : List Nat → Nat → List Nat
  | [], _ => []
  | m :: ms, r => List.replicate (r / m) m ++ greedy ms (r % m)

/-- The reference plan of the specification for an amount `n`: `[n]` when `n`
is a supported magnitude; otherwise the seed (2 if `n` is even, else 1) followed
by the greedy decomposition of the rest over `[16, 8, 2, 1]`. -/
def specPlan (n : Nat) : List Nat :=
  if n ∈ [1, 2, 8, 16] then [n]
  else
    let seed := if n % 2 = 0 then 2 else 1
    seed :: greedy [16, 8, 2, 1] (n - seed)

/-! ## Reading a lowered DAG -/

/-- Magnitudes of the chain of `Opcode` shift nodes with constant amounts that
ends at `V`, innermost first: the walk follows operand 0 and stops at the first
value that is not such a node. -/
def shiftChain (Opcode : J2ISD.NodeType) : SDValue → List Int
  | .mk o _ _ [a, b] _ =>
    if o = .j2 Opcode ∧ isaConstantSDNode b = true then
      shiftChain Opcode a ++ [getSExtValue b]
    else []
  | _ => []

/-- Magnitudes of the shift nodes that lie on the chain ending at `Res` above
the base value `LHS`, innermost first. -/
def emittedShifts (Opcode : J2ISD.NodeType) (LHS Res : SDValue) : List Int :=
  (shiftChain Opcode Res).drop (shiftChain Opcode LHS).length

/-- The value `LHS` with one `Opcode` shift node per magnitude of `plan` stacked
on it, each node consuming the previous one. -/
def applyShifts (Opcode : J2ISD.NodeType) (LHS : SDValue) (plan : List Int) : SDValue :=
  plan.foldl (fun Res k => DAG.getNode2 Opcode MVT.i32 Res (DAG.getConstant k MVT.i32)) LHS

/-- Meaning of a value as a 32-bit word: a `J2ISD::SHL` (`J2ISD::SRL`) node with a
constant amount `k` is the logical left (right) shift by `k` of its first
operand, on 32-bit words; any other value is read from the valuation `env`. -/
def evalWord (env : SDValue → Nat) : SDValue → Nat
  | .mk o d vts [a, b] r =>
    if o = .j2 .SHL ∧ isaConstantSDNode b = true then
      (evalWord env a * 2 ^ (getSExtValue b).toNat) % 2 ^ 32
    else if o = .j2 .SRL ∧ isaConstantSDNode b = true then
      evalWord env a / 2 ^ (getSExtValue b).toNat
    else env (.mk o d vts [a, b] r) % 2 ^ 32
  | V => env V % 2 ^ 32


/-! ## Concrete inputs -/

/-- A base value: the `i32` register node of register 1. -/
def baseReg : SDValue := DAG.getRegister 1 MVT.i32

/-- The generic shift node `opc baseReg, n` with the constant amount `n`. -/
def shiftOp (opc : ISD.NodeType) (n : Int) : SDValue :=
  .mk (.isd opc) .none [MVT.i32] [baseReg, DAG.getConstant n MVT.i32] 0

/-- A generic shift node whose amount is another register, not a constant. -/
def shiftOpVar (opc : ISD.NodeType) : SDValue :=
  .mk (.isd opc) .none [MVT.i32] [baseReg, DAG.getRegister 2 MVT.i32] 0

/-- The register-copy discipline shared by `LowerCall` and `LowerReturn`:
`copies` holds one `CopyToReg` node (its chain result) per register of `Regs`, in
order; the first copies `Vals[0]` and consumes `Chain` and `Glue`, and copy `i > 0`
copies `Vals[i]` and consumes the chain result and the glue result (result 1) of
copy `i - 1`. -/
def CopyThread (Chain Glue : SDValue) (Regs : List Nat) (Vals copies : List SDValue) : Prop :=
  copies.length = Regs.length ∧
  ∀ i r a, Regs[i]? = some r → Vals[i]? = some a →
    copies[i]? = some (DAG.getCopyToReg
      (if i = 0 then Chain else copies.getD (i - 1) SDValue.null) r a
      (if i = 0 then Glue else (copies.getD (i - 1) SDValue.null).getValue 1))

/-- A callee that is a global address: the function `f`. -/
def calleeGlobal : SDValue :=
  .mk (.isd .GlobalAddress) (.global ⟨"f"⟩) [MVT.i32] [] 0

/-- A callee that is an external symbol: `memcpy`. -/
def calleeExternal : SDValue :=
  .mk (.isd .ExternalSymbol) (.symbol "memcpy") [MVT.i32] [] 0

/-- A DAG of a 32-bit target at function entry: no live-in, no virtual register. -/
def entryDAG : SelectionDAG := ⟨MVT.i32, ⟨[], []⟩⟩

/-- Register location number `r` holding an `i32`. -/
def regLoc (r : Nat) : CCValAssign := ⟨false, r, MVT.i32, MVT.i32⟩

/-- Memory (stack) location at offset `off` holding an `i32`. -/
def memLoc (off : Nat) : CCValAssign := ⟨true, off, MVT.i32, MVT.i32⟩

/-! ## `EmitInstrWithCustomInserter` -/

/-- Machine opcodes used by the custom inserter (`J2::MOV32ir`, `J2::MOV32PCR`
of the generated instruction table); every other opcode is `other n`. -/
inductive InstrOpcode where
  | MOV32ir
  | MOV32PCR
  | other (n : Nat)
  deriving DecidableEq, Repr

/-- Operand of a machine instruction, by kind (`MachineOperand::getType()`). -/
inductive MachineOperand where
  /-- Register operand; `IsDef` marks a definition. -/
  | MO_Register (Reg : Nat) (IsDef : Bool)
  | MO_Immediate (Imm : Int)
  | MO_ConstantPoolIndex (Idx : Nat)
  /-- Any other operand kind. -/
  | MO_Other (kind : Nat)
  deriving DecidableEq, Repr

/-- A machine instruction: opcode, operands, debug location. -/
structure MachineInstr where
  Opcode : InstrOpcode
  Operands : List MachineOperand
  DebugLoc : Nat
  deriving DecidableEq, Repr

/-- Entry of the machine constant pool: the constant and its alignment in bytes. -/
structure MachineConstantPoolEntry where
  Val : CPVal
  Alignment : Nat
  deriving DecidableEq, Repr

/-- The per-function `MachineConstantPool`. -/
structure MachineConstantPool where
  PoolAlignment : Nat
  Constants : List MachineConstantPoolEntry
  deriving DecidableEq, Repr

/-- The constant `ConstantInt::getSigned(IntegerType::get(Ctx, 32), Imm)`: the low
32 bits of `Imm`, read as a signed value. -/
def getSigned32 (Imm : Int) : Int := (Imm + 2 ^ 31) % 2 ^ 32 - 2 ^ 31

/-- The search loop of `MachineConstantPool::getConstantPoolIndex` over the
entries: the first entry that is not a machine entry and holds the constant `C`
is reused, its alignment raised to `Alignment` when smaller.  Returns the index
and the updated entries.  (All ordinary constants here are 32-bit integers, so
sharing an entry means holding the same value.) -/
def MachineConstantPool.search (C : Int) (Alignment : Nat) :
    List MachineConstantPoolEntry → Option (Nat × List MachineConstantPoolEntry)
  | [] => none
  | E :: rest =>
    if E.Val = CPVal.ConstVal C then
      some (0, ⟨E.Val, if E.Alignment < Alignment then Alignment else E.Alignment⟩ :: rest)
    else
      match MachineConstantPool.search C Alignment rest with
      | some R => some (R.1 + 1, E :: R.2)
      | none => none

/-- Method `MachineConstantPool::getConstantPoolIndex(C, Alignment)`: asserts a
non-zero alignment, raises the pool alignment, reuses an entry or appends one. -/
def MachineConstantPool.getConstantPoolIndex (Pool : MachineConstantPool) (C : Int)
    (Alignment : Nat) : Except Fatal (Nat × MachineConstantPool) :=
  if Alignment = 0 then
    .error (.assertion "Alignment must be specified!")
  else
    let PoolAlignment := if Alignment > Pool.PoolAlignment then Alignment else Pool.PoolAlignment
    match MachineConstantPool.search C Alignment Pool.Constants with
    | some R => .ok (R.1, ⟨PoolAlignment, R.2⟩)
    | none =>
      .ok (Pool.Constants.length,
        ⟨PoolAlignment, Pool.Constants ++ [⟨CPVal.ConstVal C, Alignment⟩]⟩)

/-- The function `EmitInstrWithCustomInserter(MI, MBB)`, where `MI` is the
instruction at position `p` of the block `MBB` and `Pool` is the constant pool of
the function.  Returns the updated pool and block. -/
def EmitInstrWithCustomInserter (Pool : MachineConstantPool) (MBB : List MachineInstr)
    (p : Nat) : Except Fatal (MachineConstantPool × List MachineInstr) :=
  match MBB[p]? with
  | none => .error (.assertion "MI is not an instruction of MBB")
  | some MI =>
    match MI.Opcode with
    | InstrOpcode.MOV32ir =>
      match MI.Operands[1]? with
      | some (MachineOperand.MO_Immediate Imm) => do
        let Constant := getSigned32 Imm
        let R ← Pool.getConstantPoolIndex Constant 4
        match MI.Operands[0]? with
        | some (MachineOperand.MO_Register Reg _) =>
          let New : MachineInstr :=
            ⟨.MOV32PCR, [.MO_Register Reg true, .MO_ConstantPoolIndex R.1], MI.DebugLoc⟩
          -- BuildMI inserts before MI; MI, now at position p + 1, is erased
          .ok (R.2, (MBB.take p ++ New :: MBB.drop p).eraseIdx (p + 1))
        | _ => .error (.assertion "This is not a register operand!")
      | some _ => .error (.unreachable "Unexpected operand type for MOV32ir")
      | none => .error (.assertion "getOperand() out of range!")
    | _ => .error (.unreachable "Unexpected instr type to insert")

/-! ## Reading the nodes of a lowered value -/

/-- The register-read discipline of `LowerCall`: `reads` holds one `CopyFromReg`
node (its value result) per location of `Locs`, in order; the first consumes
`Chain` and `Glue`, and read `i > 0` consumes the chain result (result 1) and the
glue result (result 2) of read `i - 1`. -/
def ReadThread (Chain Glue : SDValue) (Locs : List CCValAssign) (reads : List SDValue) : Prop :=
  reads.length = Locs.length ∧
  ∀ (i : Nat) (L : CCValAssign), Locs[i]? = some L →
    reads[i]? = some (DAG.getCopyFromRegGlue
      (if i = 0 then Chain else (reads.getD (i - 1) SDValue.null).getValue 1) L.Loc L.ValVT
      (if i = 0 then Glue else (reads.getD (i - 1) SDValue.null).getValue 2))

mutual

/-- All values reachable from `V` through operands, `V` included. -/
def SDValue.reachable : SDValue → List SDValue
  | .null => []
  | .mk o d vts ops r => .mk o d vts ops r :: SDValue.reachableList ops

/-- All values reachable from the values of a list. -/
def SDValue.reachableList : List SDValue → List SDValue
  | [] => []
  | V :: rest => SDValue.reachable V ++ SDValue.reachableList rest

end

/-- Test for a value that carries a number: a constant node or an ordinary
constant-pool entry. -/
def carriesNumber (V : SDValue) : Bool :=
  isaConstantSDNode V ||
    (match V.getData with
     | .const _ => true
     | .cp (.ConstVal _) _ => true
     | _ => false)

/-- The placeholder `MOV32ir r, v`. -/
def mov32ir (r : Nat) (v : Int) : MachineInstr :=
  ⟨.MOV32ir, [.MO_Register r true, .MO_Immediate v], 0⟩

/-- Some other instruction with opcode number `n` defining register `r`. -/
def otherInstr (n r : Nat) : MachineInstr :=
  ⟨.other n, [.MO_Register r true], 0⟩

/-- The empty constant pool. -/
def emptyPool : MachineConstantPool := ⟨1, []⟩

/-! # Theorems -/
/-! ## Lemmas on the greedy decomposition -/

theorem greedy_zero (ms : List Nat) : greedy ms 0 = [] := by
  induction ms with
  | nil => rfl
  | cons m ms ih => simp [greedy, ih]

theorem greedy_cons_fits (m : Nat) (ms : List Nat) (r : Nat) (hm : 0 < m) (h : m ≤ r) :
    greedy (m :: ms) r = m :: greedy (m :: ms) (r - m) := by
  have h1 : r / m = (r - m) / m + 1 := by
    rw [Nat.div_eq r m]
    simp [hm, h]
  have h2 : r % m = (r - m) % m := by
    rw [Nat.mod_eq_sub_mod h]
  simp [greedy, h1, h2, List.replicate_succ]

theorem greedy_cons_skip (m : Nat) (ms : List Nat) (r : Nat) (h : r < m) :
    greedy (m :: ms) r = greedy ms r := by
  simp [greedy, Nat.div_eq_of_lt h, Nat.mod_eq_of_lt h]

theorem greedy_sum_le (ms : List Nat) (r : Nat) : (greedy ms r).sum ≤ r := by
  induction ms generalizing r with
  | nil => simp [greedy]
  | cons m ms ih =>
    have h1 := ih (r % m)
    have h2 := Nat.div_add_mod r m
    simp only [greedy, List.sum_append, List.sum_replicate, smul_eq_mul]
    rw [Nat.mul_comm] at h2
    omega

theorem greedy_sum (ms : List Nat) (r : Nat) (h1 : 1 ∈ ms) : (greedy ms r).sum = r := by
  induction ms generalizing r with
  | nil => simp at h1
  | cons m ms ih =>
    have h2 := Nat.div_add_mod r m
    rw [Nat.mul_comm] at h2
    simp only [greedy, List.sum_append, List.sum_replicate, smul_eq_mul]
    by_cases hm : m = 1
    · subst hm
      have := greedy_sum_le ms (r % 1)
      simp [Nat.mod_one] at this ⊢
      omega
    · have hin : 1 ∈ ms := by
        rcases List.mem_cons.1 h1 with h | h
        · exact absurd h.symm hm
        · exact h
      rw [ih (r % m) hin]
      omega

theorem greedy_mem (ms : List Nat) (r k : Nat) (h : k ∈ greedy ms r) : k ∈ ms := by
  induction ms generalizing r with
  | nil => simp [greedy] at h
  | cons m ms ih =>
    simp only [greedy, List.mem_append] at h
    rcases h with h | h
    · exact List.mem_cons.2 (Or.inl (List.eq_of_mem_replicate h))
    · exact List.mem_cons_of_mem _ (ih _ h)

/-! ## Lemmas on shift chains -/

theorem shiftChain_getNode2 (Opcode : J2ISD.NodeType) (Res : SDValue) (k : Int) :
    shiftChain Opcode (DAG.getNode2 Opcode MVT.i32 Res (DAG.getConstant k MVT.i32))
      = shiftChain Opcode Res ++ [k] := by
  simp [DAG.getNode2, DAG.getConstant, shiftChain, isaConstantSDNode, SDValue.getOpcode,
    getSExtValue, SDValue.getData]

theorem applyShifts_append (Opcode : J2ISD.NodeType) (LHS : SDValue) (p q : List Int) :
    applyShifts Opcode LHS (p ++ q) = applyShifts Opcode (applyShifts Opcode LHS p) q := by
  simp [applyShifts, List.foldl_append]

theorem applyShifts_cons (Opcode : J2ISD.NodeType) (LHS : SDValue) (k : Int) (p : List Int) :
    applyShifts Opcode LHS (k :: p)
      = applyShifts Opcode (DAG.getNode2 Opcode MVT.i32 LHS (DAG.getConstant k MVT.i32)) p := by
  simp [applyShifts]

theorem shiftChain_applyShifts (Opcode : J2ISD.NodeType) (LHS : SDValue) (plan : List Int) :
    shiftChain Opcode (applyShifts Opcode LHS plan) = shiftChain Opcode LHS ++ plan := by
  induction plan generalizing LHS with
  | nil => simp [applyShifts]
  | cons k p ih =>
    rw [applyShifts_cons, ih, shiftChain_getNode2]
    simp

theorem emittedShifts_applyShifts (Opcode : J2ISD.NodeType) (LHS : SDValue) (plan : List Int) :
    emittedShifts Opcode LHS (applyShifts Opcode LHS plan) = plan := by
  simp [emittedShifts, shiftChain_applyShifts]

/-! ## The loop of `LowerShift` -/

theorem Ls_drop (cs : Nat) (h : cs < 4) :
    ∃ m : Nat, 0 < m ∧ Ls.getD cs 0 = (m : Int) ∧
      ([16, 8, 2, 1] : List Nat).drop cs = m :: ([16, 8, 2, 1] : List Nat).drop (cs + 1) ∧
      (cs = 3 → m = 1) := by
  interval_cases cs
  · exact ⟨16, by norm_num, rfl, rfl, by simp⟩
  · exact ⟨8, by norm_num, rfl, rfl, by simp⟩
  · exact ⟨2, by norm_num, rfl, rfl, by simp⟩
  · exact ⟨1, by norm_num, rfl, rfl, by simp⟩

theorem loop_greedy (Opcode : J2ISD.NodeType) (Shift : Int) (CurrentSize : Nat) (Res : SDValue) :
    0 ≤ Shift → CurrentSize < 4 →
      LowerShift.loop Opcode Shift CurrentSize Res
        = .ok (applyShifts Opcode Res
            ((greedy (([16, 8, 2, 1] : List Nat).drop CurrentSize) Shift.toNat).map (Nat.cast : Nat → Int))) := by
  induction Shift, CurrentSize, Res using LowerShift.loop.induct Opcode with
  | case1 cs Res =>
    intro _ _
    rw [LowerShift.loop]
    simp [greedy_zero, applyShifts]
  | case2 S cs Res hS h hfit ih =>
    intro h0 h4
    obtain ⟨m, hm, hget, hdrop, _⟩ := Ls_drop cs h4
    rw [LowerShift.loop]
    simp only [hS, if_false, h, dite_true, hfit, if_true]
    rw [hget] at hfit ih ⊢
    have hpos : 0 ≤ S - (m : Int) := hfit
    rw [ih hpos h4, hdrop, greedy_cons_fits m _ S.toNat hm (by omega)]
    have ht : (S - (m : Int)).toNat = S.toNat - m := by omega
    rw [ht, List.map_cons, applyShifts_cons]
  | case3 S cs Res hS h hfit ih =>
    intro h0 h4
    obtain ⟨m, hm, hget, hdrop, h3⟩ := Ls_drop cs h4
    rw [LowerShift.loop]
    simp only [hS, if_false, h, dite_true, hfit]
    rw [hget] at hfit
    have hlt : S < (m : Int) := by omega
    have hcs : cs + 1 < 4 := by
      by_contra hc
      have : m = 1 := h3 (by omega)
      omega
    rw [ih h0 hcs, hdrop, greedy_cons_skip m _ S.toNat (by omega)]
  | case4 S cs Res hS h =>
    intro _ h4
    exact absurd h4 h

theorem loop_negative (Opcode : J2ISD.NodeType) (Shift : Int) (CurrentSize : Nat) (Res : SDValue) :
    Shift < 0 →
      LowerShift.loop Opcode Shift CurrentSize Res = .error (.assertion "Array out of bounds.") := by
  induction Shift, CurrentSize, Res using LowerShift.loop.induct Opcode with
  | case1 cs Res => intro h; omega
  | case2 S cs Res hS h hfit ih =>
    intro hneg
    have h4 : cs < 4 := h
    exfalso
    interval_cases cs <;> simp [Ls] at hfit <;> omega
  | case3 S cs Res hS h hfit ih =>
    intro hneg
    rw [LowerShift.loop]
    simp only [hS, if_false, h, dite_true, hfit]
    exact ih hneg
  | case4 S cs Res hS h =>
    intro _
    rw [LowerShift.loop]
    simp [hS, h]

/-! ## `InitShift` and the whole of `LowerShift` -/

theorem InitShift_snd_nonneg (n : Int) (h0 : 0 ≤ n) : 0 ≤ (InitShift n).2 := by
  unfold InitShift
  split_ifs with h1 h2
  · simp
  · have h3 : n.tmod 2 = n % 2 := Int.tmod_eq_emod h0 (by norm_num)
    simp only [Ls, List.mem_cons, List.mem_singleton, List.not_mem_nil, or_false] at h1
    show 0 ≤ n - 2
    omega
  · simp only [Ls, List.mem_cons, List.mem_singleton, List.not_mem_nil, or_false] at h1
    show 0 ≤ n - 1
    omega

theorem InitShift_sum (n : Int) : (InitShift n).1 + (InitShift n).2 = n := by
  unfold InitShift
  split_ifs with h1 h2
  · simp only [Ls, List.mem_cons, List.mem_singleton, List.not_mem_nil, or_false] at h1
    rcases h1 with h | h | h | h | h <;> subst h <;> decide
  · show 2 + (n - 2) = n
    omega
  · show 1 + (n - 1) = n
    omega

theorem InitShift_fst_mem (n : Int) (hn : n ≠ 0) : (InitShift n).1 ∈ ([1, 2, 8, 16] : List Int) := by
  unfold InitShift
  split_ifs with h1 h2
  · simp only [Ls, List.mem_cons, List.mem_singleton, List.not_mem_nil, or_false] at h1
    rcases h1 with h | h | h | h | h
    · exact absurd h hn
    all_goals subst h; decide
  · show (2 : Int) ∈ ([1, 2, 8, 16] : List Int)
    decide
  · show (1 : Int) ∈ ([1, 2, 8, 16] : List Int)
    decide

theorem InitShift_zero : InitShift 0 = (0, 0) := by decide

/-- The magnitudes `LowerShift` stacks on the base value for a non-negative
constant amount: the seed, then the greedy decomposition of the rest. -/
theorem LowerShift_nonneg (Opcode : J2ISD.NodeType) (Op : SDValue) (n : Int)
    (hR : dynCastConstant (Op.getOperand 1) = some n) (h0 : 0 ≤ n) :
    LowerShift Opcode Op = .ok (applyShifts Opcode (Op.getOperand 0)
      ((InitShift n).1 ::
        (greedy [16, 8, 2, 1] (InitShift n).2.toNat).map (Nat.cast : Nat → Int))) := by
  unfold LowerShift
  simp only [hR]
  rw [loop_greedy Opcode _ 0 _ (InitShift_snd_nonneg n h0) (by norm_num), applyShifts_cons]
  rfl

theorem sum_map_cast (l : List Nat) : (l.map (Nat.cast : Nat → Int)).sum = ((l.sum : Nat) : Int) := by
  induction l with
  | nil => rfl
  | cons a l ih => simp only [List.map_cons, List.sum_cons, ih, Nat.cast_add]

theorem greedy_tail_sum (n : Int) (h0 : 0 ≤ n) :
    ((greedy [16, 8, 2, 1] (InitShift n).2.toNat).map (Nat.cast : Nat → Int)).sum
      = (InitShift n).2 := by
  rw [sum_map_cast, greedy_sum _ _ (by decide)]
  have := InitShift_snd_nonneg n h0
  omega

theorem greedy_tail_mem (r : Nat) (k : Int)
    (h : k ∈ (greedy [16, 8, 2, 1] r).map (Nat.cast : Nat → Int)) :
    k ∈ ([1, 2, 8, 16] : List Int) := by
  obtain ⟨a, ha, rfl⟩ := List.mem_map.1 h
  have := greedy_mem _ _ _ ha
  simp only [List.mem_cons, List.mem_singleton, List.not_mem_nil, or_false] at this
  rcases this with h | h | h | h <;> subst h <;> decide

/-! ## Claims on `LowerShift` -/

/-- C1: for a constant amount `n` in `[0, 31]`, `LowerShift` returns the base value
with a chain of shift nodes stacked on it whose magnitudes (the seed returned by
`InitShift` first, then those of the loop) sum exactly to `n`. -/
theorem LowerShift_magnitudes_sum (Opcode : J2ISD.NodeType) (Op : SDValue) (n : Int)
    (hR : dynCastConstant (Op.getOperand 1) = some n) (h0 : 0 ≤ n) (h31 : n ≤ 31) :
    ∃ Res, LowerShift Opcode Op = .ok Res ∧
      Res = applyShifts Opcode (Op.getOperand 0) (emittedShifts Opcode (Op.getOperand 0) Res) ∧
      (emittedShifts Opcode (Op.getOperand 0) Res).head? = some (InitShift n).1 ∧
      (emittedShifts Opcode (Op.getOperand 0) Res).sum = n := by
  refine ⟨_, LowerShift_nonneg Opcode Op n hR h0, ?_, ?_, ?_⟩
  · rw [emittedShifts_applyShifts]
  · rw [emittedShifts_applyShifts]
    rfl
  · rw [emittedShifts_applyShifts, List.sum_cons, greedy_tail_sum n h0]
    exact InitShift_sum n

/-- Witness of C1 at `SHL baseReg, 5`. -/
theorem LowerShift_magnitudes_sum_witness :
    ∃ Res, LowerShift .SHL (shiftOp .SHL 5) = .ok Res ∧
      Res = applyShifts .SHL ((shiftOp .SHL 5).getOperand 0)
        (emittedShifts .SHL ((shiftOp .SHL 5).getOperand 0) Res) ∧
      (emittedShifts .SHL ((shiftOp .SHL 5).getOperand 0) Res).head? = some (InitShift 5).1 ∧
      (emittedShifts .SHL ((shiftOp .SHL 5).getOperand 0) Res).sum = 5 :=
  LowerShift_magnitudes_sum .SHL (shiftOp .SHL 5) 5 rfl (by decide) (by decide)

theorem evalWord_SHL (env : SDValue → Nat) (Res : SDValue) (k : Int) :
    evalWord env (DAG.getNode2 .SHL MVT.i32 Res (DAG.getConstant k MVT.i32))
      = (evalWord env Res * 2 ^ k.toNat) % 2 ^ 32 := by
  simp [DAG.getNode2, DAG.getConstant, evalWord, isaConstantSDNode, SDValue.getOpcode,
    getSExtValue, SDValue.getData]

theorem evalWord_SRL (env : SDValue → Nat) (Res : SDValue) (k : Int) :
    evalWord env (DAG.getNode2 .SRL MVT.i32 Res (DAG.getConstant k MVT.i32))
      = evalWord env Res / 2 ^ k.toNat := by
  simp [DAG.getNode2, DAG.getConstant, evalWord, isaConstantSDNode, SDValue.getOpcode,
    getSExtValue, SDValue.getData]

theorem evalWord_applyShifts_SHL (env : SDValue → Nat) (LHS : SDValue) (plan : List Int)
    (hx : evalWord env LHS < 2 ^ 32) (hp : ∀ k ∈ plan, 0 ≤ k) :
    evalWord env (applyShifts .SHL LHS plan)
      = (evalWord env LHS * 2 ^ plan.sum.toNat) % 2 ^ 32 := by
  induction plan generalizing LHS with
  | nil =>
    have h := Nat.mod_eq_of_lt hx
    simp only [applyShifts, List.foldl_nil, List.sum_nil, Int.toNat_zero, pow_zero, Nat.mul_one]
    exact h.symm
  | cons k p ih =>
    have hk : 0 ≤ k := hp k (List.mem_cons_self _ _)
    have hp2 : ∀ j ∈ p, 0 ≤ j := fun j hj => hp j (List.mem_cons_of_mem _ hj)
    have hs : 0 ≤ p.sum := List.sum_nonneg hp2
    rw [applyShifts_cons, ih _ (by rw [evalWord_SHL]; exact Nat.mod_lt _ (by norm_num)) hp2,
      evalWord_SHL, List.sum_cons]
    have ht : (k + p.sum).toNat = k.toNat + p.sum.toNat := by omega
    rw [ht, pow_add, Nat.mod_mul_mod, Nat.mul_assoc]

theorem evalWord_applyShifts_SRL (env : SDValue → Nat) (LHS : SDValue) (plan : List Int)
    (hp : ∀ k ∈ plan, 0 ≤ k) :
    evalWord env (applyShifts .SRL LHS plan) = evalWord env LHS / 2 ^ plan.sum.toNat := by
  induction plan generalizing LHS with
  | nil => simp [applyShifts]
  | cons k p ih =>
    have hk : 0 ≤ k := hp k (List.mem_cons_self _ _)
    have hp2 : ∀ j ∈ p, 0 ≤ j := fun j hj => hp j (List.mem_cons_of_mem _ hj)
    have hs : 0 ≤ p.sum := List.sum_nonneg hp2
    rw [applyShifts_cons, ih _ hp2, evalWord_SRL, List.sum_cons]
    have ht : (k + p.sum).toNat = k.toNat + p.sum.toNat := by omega
    rw [ht, pow_add, Nat.div_div_eq_div_mul]

theorem plan_nonneg (n : Int) (h0 : 0 ≤ n) :
    ∀ k ∈ (InitShift n).1 ::
        (greedy [16, 8, 2, 1] (InitShift n).2.toNat).map (Nat.cast : Nat → Int), 0 ≤ k := by
  intro k hk
  rcases List.mem_cons.1 hk with h | h
  · have h1 := InitShift_sum n
    by_cases hn : n = 0
    · subst hn
      rw [h, InitShift_zero]
    · have := InitShift_fst_mem n hn
      rw [← h] at this
      simp only [List.mem_cons, List.mem_singleton, List.not_mem_nil, or_false] at this
      omega
  · have := greedy_tail_mem _ _ h
    simp only [List.mem_cons, List.mem_singleton, List.not_mem_nil, or_false] at this
    omega

theorem plan_sum (n : Int) (h0 : 0 ≤ n) :
    ((InitShift n).1 ::
        (greedy [16, 8, 2, 1] (InitShift n).2.toNat).map (Nat.cast : Nat → Int)).sum = n := by
  rw [List.sum_cons, greedy_tail_sum n h0]
  exact InitShift_sum n

/-- C2: for every 32-bit word `x` (the meaning of the base value) and every constant
amount `n` in `[0, 31]`, the chain `LowerShift` builds denotes the single logical
shift of `x` by `n`: `x * 2^n mod 2^32` for `J2ISD::SHL`, `x / 2^n` for `J2ISD::SRL`. -/
theorem LowerShift_chain_semantics (env : SDValue → Nat) (Op : SDValue) (n : Int) (x : Nat)
    (hR : dynCastConstant (Op.getOperand 1) = some n) (h0 : 0 ≤ n) (h31 : n ≤ 31)
    (hx : evalWord env (Op.getOperand 0) = x) (hx32 : x < 2 ^ 32) :
    (∃ Res, LowerShift .SHL Op = .ok Res ∧ evalWord env Res = (x * 2 ^ n.toNat) % 2 ^ 32) ∧
    (∃ Res, LowerShift .SRL Op = .ok Res ∧ evalWord env Res = x / 2 ^ n.toNat) := by
  constructor
  · refine ⟨_, LowerShift_nonneg .SHL Op n hR h0, ?_⟩
    rw [evalWord_applyShifts_SHL env _ _ (by rw [hx]; exact hx32) (plan_nonneg n h0),
      plan_sum n h0, hx]
  · refine ⟨_, LowerShift_nonneg .SRL Op n hR h0, ?_⟩
    rw [evalWord_applyShifts_SRL env _ _ (plan_nonneg n h0), plan_sum n h0, hx]

/-- Witness of C2: the word 0xF0000001 shifted by 5. -/
theorem LowerShift_chain_semantics_witness :
    (∃ Res, LowerShift .SHL (shiftOp .SHL 5) = .ok Res ∧
      evalWord (fun _ => 4026531841) Res = (4026531841 * 2 ^ (5 : Int).toNat) % 2 ^ 32) ∧
    (∃ Res, LowerShift .SRL (shiftOp .SHL 5) = .ok Res ∧
      evalWord (fun _ => 4026531841) Res = 4026531841 / 2 ^ (5 : Int).toNat) :=
  LowerShift_chain_semantics (fun _ => 4026531841) (shiftOp .SHL 5) 5 4026531841 rfl
    (by decide) (by decide) (by simp [shiftOp, baseReg, DAG.getRegister, SDValue.getOperand, evalWord])
    (by norm_num)

/-- C3 (counterexample): for the amount 0 the plan is not empty.  `LowerShift`
emits one shift node, of magnitude 0, which is not in `{1, 2, 8, 16}`, and the
result is that node, not the base value. -/
theorem LowerShift_zero_not_empty :
    LowerShift .SHL (shiftOp .SHL 0)
        = .ok (DAG.getNode2 .SHL MVT.i32 baseReg (DAG.getConstant 0 MVT.i32)) ∧
      emittedShifts .SHL baseReg
        (DAG.getNode2 .SHL MVT.i32 baseReg (DAG.getConstant 0 MVT.i32)) = [0] ∧
      (0 : Int) ∉ ([1, 2, 8, 16] : List Int) ∧
      DAG.getNode2 .SHL MVT.i32 baseReg (DAG.getConstant 0 MVT.i32) ≠ baseReg := by
  refine ⟨?_, ?_, by decide, ?_⟩
  · rw [LowerShift_nonneg .SHL (shiftOp .SHL 0) 0 rfl (by decide)]
    rfl
  · exact emittedShifts_applyShifts .SHL baseReg [0]
  · simp [DAG.getNode2, baseReg, DAG.getRegister]

/-- C3 (amended): for a constant amount `n` in `[1, 31]` the plan is non-empty and
every magnitude emitted is in `{1, 2, 8, 16}`; for `n = 0` exactly one shift node,
of magnitude 0, is emitted on the base value. -/
theorem LowerShift_magnitudes_supported (Opcode : J2ISD.NodeType) (Op : SDValue) (n : Int)
    (hR : dynCastConstant (Op.getOperand 1) = some n) (h0 : 0 ≤ n) (h31 : n ≤ 31) :
    ∃ Res, LowerShift Opcode Op = .ok Res ∧
      Res = applyShifts Opcode (Op.getOperand 0) (emittedShifts Opcode (Op.getOperand 0) Res) ∧
      (0 < n → emittedShifts Opcode (Op.getOperand 0) Res ≠ [] ∧
        ∀ k ∈ emittedShifts Opcode (Op.getOperand 0) Res, k ∈ ([1, 2, 8, 16] : List Int)) ∧
      (n = 0 → emittedShifts Opcode (Op.getOperand 0) Res = [0]) := by
  refine ⟨_, LowerShift_nonneg Opcode Op n hR h0, ?_, ?_, ?_⟩
  · rw [emittedShifts_applyShifts]
  · intro hn
    rw [emittedShifts_applyShifts]
    refine ⟨List.cons_ne_nil _ _, ?_⟩
    intro k hk
    rcases List.mem_cons.1 hk with h | h
    · rw [h]
      exact InitShift_fst_mem n (by omega)
    · exact greedy_tail_mem _ _ h
  · intro hn
    subst hn
    rw [emittedShifts_applyShifts]
    rfl

/-- Witness of the amended C3 at `SRL baseReg, 24`. -/
theorem LowerShift_magnitudes_supported_witness :
    ∃ Res, LowerShift .SRL (shiftOp .SRL 24) = .ok Res ∧
      Res = applyShifts .SRL ((shiftOp .SRL 24).getOperand 0)
        (emittedShifts .SRL ((shiftOp .SRL 24).getOperand 0) Res) ∧
      ((0 : Int) < 24 → emittedShifts .SRL ((shiftOp .SRL 24).getOperand 0) Res ≠ [] ∧
        ∀ k ∈ emittedShifts .SRL ((shiftOp .SRL 24).getOperand 0) Res,
          k ∈ ([1, 2, 8, 16] : List Int)) ∧
      ((24 : Int) = 0 → emittedShifts .SRL ((shiftOp .SRL 24).getOperand 0) Res = [0]) :=
  LowerShift_magnitudes_supported .SRL (shiftOp .SRL 24) 24 rfl (by decide) (by decide)

theorem specPlan_eq (n : Nat) (h1 : 1 ≤ n) (h31 : n ≤ 31) :
    (specPlan n).map (Nat.cast : Nat → Int)
      = (InitShift (n : Int)).1 ::
          (greedy [16, 8, 2, 1] (InitShift (n : Int)).2.toNat).map (Nat.cast : Nat → Int) := by
  interval_cases n <;> rfl

/-- C4: for a constant amount `n` in `[1, 31]` the magnitudes `LowerShift` emits
are the reference plan `specPlan n` of the specification, whose values at
1, 2, 3, 5, 16 and 17 are the listed traces. -/
theorem LowerShift_refines_specPlan (Opcode : J2ISD.NodeType) (Op : SDValue) (n : Nat)
    (hR : dynCastConstant (Op.getOperand 1) = some (n : Int)) (h1 : 1 ≤ n) (h31 : n ≤ 31) :
    ∃ Res, LowerShift Opcode Op = .ok Res ∧
      Res = applyShifts Opcode (Op.getOperand 0) (emittedShifts Opcode (Op.getOperand 0) Res) ∧
      emittedShifts Opcode (Op.getOperand 0) Res = (specPlan n).map (Nat.cast : Nat → Int) ∧
      (specPlan 1 = [1] ∧ specPlan 2 = [2] ∧ specPlan 3 = [1, 2] ∧ specPlan 5 = [1, 2, 2] ∧
        specPlan 16 = [16] ∧ specPlan 17 = [1, 16]) := by
  refine ⟨_, LowerShift_nonneg Opcode Op n hR (by omega), ?_, ?_, by decide⟩
  · rw [emittedShifts_applyShifts]
  · rw [emittedShifts_applyShifts, specPlan_eq n h1 h31]

/-- Witness of C4 at `SHL baseReg, 17`, whose plan is `[1, 16]`. -/
theorem LowerShift_refines_specPlan_witness :
    ∃ Res, LowerShift .SHL (shiftOp .SHL 17) = .ok Res ∧
      Res = applyShifts .SHL ((shiftOp .SHL 17).getOperand 0)
        (emittedShifts .SHL ((shiftOp .SHL 17).getOperand 0) Res) ∧
      emittedShifts .SHL ((shiftOp .SHL 17).getOperand 0) Res
        = (specPlan 17).map (Nat.cast : Nat → Int) ∧
      (specPlan 1 = [1] ∧ specPlan 2 = [2] ∧ specPlan 3 = [1, 2] ∧ specPlan 5 = [1, 2, 2] ∧
        specPlan 16 = [16] ∧ specPlan 17 = [1, 16]) :=
  LowerShift_refines_specPlan .SHL (shiftOp .SHL 17) 17 rfl (by decide) (by decide)

theorem LowerShift_negative (Opcode : J2ISD.NodeType) (Op : SDValue) (n : Int)
    (hR : dynCastConstant (Op.getOperand 1) = some n) (hn : n < 0) :
    LowerShift Opcode Op = .error (.assertion "Array out of bounds.") := by
  unfold LowerShift
  simp only [hR]
  apply loop_negative
  unfold InitShift
  split_ifs with h1 h2
  · simp only [Ls, List.mem_cons, List.mem_singleton, List.not_mem_nil, or_false] at h1
    omega
  · show n - 2 < 0
    omega
  · show n - 1 < 0
    omega

/-- C5 (counterexample): the constant amount 32 is not rejected; `LowerShift`
returns the chain with magnitudes `[2, 16, 8, 2, 2, 2]`. -/
theorem LowerShift_accepts_32 :
    dynCastConstant ((shiftOp .SHL 32).getOperand 1) = some 32 ∧
      LowerShift .SHL (shiftOp .SHL 32)
        = .ok (applyShifts .SHL baseReg [2, 16, 8, 2, 2, 2]) := by
  refine ⟨rfl, ?_⟩
  rw [LowerShift_nonneg .SHL (shiftOp .SHL 32) 32 rfl (by decide)]
  rfl

/-- C5 (amended): `LowerShift` fails fatally when the amount operand is not a
constant, and when it is a negative (`i32`) constant; a constant of 32 or more is
not rejected but lowered to a chain whose magnitudes sum to it. -/
theorem LowerShift_fatal_cases (Opcode : J2ISD.NodeType) (Op : SDValue) :
    (dynCastConstant (Op.getOperand 1) = none →
      LowerShift Opcode Op = .error (.unreachable "Shift with no constants.")) ∧
    (∀ n : Int, dynCastConstant (Op.getOperand 1) = some n → -(2 : Int) ^ 31 ≤ n → n < 0 →
      LowerShift Opcode Op = .error (.assertion "Array out of bounds.")) ∧
    (∀ n : Int, dynCastConstant (Op.getOperand 1) = some n → 32 ≤ n →
      ∃ Res, LowerShift Opcode Op = .ok Res ∧
        (emittedShifts Opcode (Op.getOperand 0) Res).sum = n) := by
  refine ⟨?_, ?_, ?_⟩
  · intro h
    unfold LowerShift
    simp only [h]
  · intro n hR _ hn
    exact LowerShift_negative Opcode Op n hR hn
  · intro n hR hn
    refine ⟨_, LowerShift_nonneg Opcode Op n hR (by omega), ?_⟩
    rw [emittedShifts_applyShifts]
    exact plan_sum n (by omega)

/-- Witness of the amended C5: a register amount and the constant amount -3. -/
theorem LowerShift_fatal_cases_witness :
    LowerShift .SHL (shiftOpVar .SHL) = .error (.unreachable "Shift with no constants.") ∧
      LowerShift .SRL (shiftOp .SRL (-3)) = .error (.assertion "Array out of bounds.") :=
  ⟨(LowerShift_fatal_cases .SHL (shiftOpVar .SHL)).1 rfl,
    (LowerShift_fatal_cases .SRL (shiftOp .SRL (-3))).2.1 (-3) rfl (by decide) (by decide)⟩

/-! ## Register-copy threads -/

theorem CopyThread_nil (Chain Glue : SDValue) (Vals : List SDValue) :
    CopyThread Chain Glue [] Vals [] := by
  refine ⟨rfl, ?_⟩
  intro i r a h
  simp at h

theorem CopyThread_cons (Chain Glue : SDValue) (r : Nat) (a : SDValue) (Regs : List Nat)
    (Vals copies : List SDValue)
    (h : CopyThread (DAG.getCopyToReg Chain r a Glue)
      ((DAG.getCopyToReg Chain r a Glue).getValue 1) Regs Vals copies) :
    CopyThread Chain Glue (r :: Regs) (a :: Vals) (DAG.getCopyToReg Chain r a Glue :: copies) := by
  obtain ⟨hlen, hidx⟩ := h
  refine ⟨by simp [hlen], ?_⟩
  intro i r' a' hr ha
  cases i with
  | zero =>
    simp only [List.getElem?_cons_zero, Option.some.injEq] at hr ha
    subst hr
    subst ha
    simp
  | succ j =>
    simp only [List.getElem?_cons_succ] at hr ha
    have := hidx j r' a' hr ha
    simp only [List.getElem?_cons_succ, this, Nat.add_sub_cancel, Nat.succ_ne_zero, if_false]
    cases j with
    | zero => simp
    | succ k => simp

theorem drop_of_getElem? (l : List SDValue) (i : Nat) (a : SDValue) (h : l[i]? = some a) :
    l.drop i = a :: l.drop (i + 1) := by
  have hi : i < l.length := by
    by_contra hc
    rw [List.getElem?_eq_none (by omega)] at h
    exact Option.noConfusion h
  rw [List.getElem?_eq_getElem hi] at h
  rw [List.drop_eq_getElem_cons hi]
  simp only [Option.some.injEq] at h
  rw [h]

theorem getElem?_of_lt (l : List SDValue) (i : Nat) (h : i < l.length) : ∃ a, l[i]? = some a :=
  ⟨l[i], List.getElem?_eq_getElem h⟩

theorem getLastD_mem (l : List SDValue) (d : SDValue) (h : l ≠ []) : l.getLastD d ∈ l := by
  induction l generalizing d with
  | nil => exact absurd rfl h
  | cons c cs ih =>
    rw [List.getLastD_cons]
    by_cases hc : cs = []
    · subst hc
      simp
    · exact List.mem_cons_of_mem _ (ih c hc)

theorem CopyThread_hasNode (Chain Glue : SDValue) (Regs : List Nat) (Vals copies : List SDValue)
    (h : CopyThread Chain Glue Regs Vals copies) (hlen : Regs.length ≤ Vals.length) :
    ∀ x ∈ copies, (x.getValue 1).hasNode = true := by
  intro x hx
  obtain ⟨hl, hidx⟩ := h
  obtain ⟨j, hj, rfl⟩ := List.getElem_of_mem hx
  have hr : Regs[j]? = some Regs[j] := List.getElem?_eq_getElem (by omega)
  have ha : Vals[j]? = some Vals[j] := List.getElem?_eq_getElem (by omega)
  have h1 := hidx j _ _ hr ha
  rw [List.getElem?_eq_getElem hj] at h1
  simp only [Option.some.injEq] at h1
  rw [h1]
  rfl

theorem CopyThread_glue (Chain Glue : SDValue) (Regs : List Nat) (Vals copies : List SDValue)
    (h : CopyThread Chain Glue Regs Vals copies) (hlen : Regs.length ≤ Vals.length)
    (hne : Regs ≠ []) : ((copies.getLastD Chain).getValue 1).hasNode = true := by
  apply CopyThread_hasNode Chain Glue Regs Vals copies h hlen
  apply getLastD_mem
  intro hc
  obtain ⟨hl, _⟩ := h
  subst hc
  exact hne (List.length_eq_zero.1 hl.symm)

theorem CopyThread_empty (Chain Glue : SDValue) (Vals copies : List SDValue)
    (h : CopyThread Chain Glue [] Vals copies) : copies = [] :=
  List.length_eq_zero.1 h.1

/-! ## `LowerReturn` -/

theorem LowerReturn_loop_spec (OutVals : List SDValue) (rest : List CCValAssign) :
    ∀ (i : Nat) (S : RetState), (∀ VA ∈ rest, VA.isRegLoc = true) →
      i + rest.length ≤ OutVals.length →
      ∃ copies, CopyThread S.Chain S.Glue (rest.map CCValAssign.Loc) (OutVals.drop i) copies ∧
        LowerReturn.loop OutVals rest i S = .ok
          ⟨copies.getLastD S.Chain,
            if rest = [] then S.Glue else (copies.getLastD S.Chain).getValue 1,
            S.RetOps ++ rest.map (fun VA => DAG.getRegister VA.Loc VA.LocVT)⟩ := by
  induction rest with
  | nil =>
    intro i S _ _
    exact ⟨[], CopyThread_nil _ _ _, by simp [LowerReturn.loop]⟩
  | cons VA rest ih =>
    intro i S hreg hlen
    have hVA : VA.isRegLoc = true := hreg VA (List.mem_cons_self _ _)
    have hrest : ∀ V ∈ rest, V.isRegLoc = true := fun V hV => hreg V (List.mem_cons_of_mem _ hV)
    simp only [List.length_cons] at hlen
    obtain ⟨a, ha⟩ := getElem?_of_lt OutVals i (by omega)
    obtain ⟨copies, hthread, hloop⟩ := ih (i + 1)
      ⟨DAG.getCopyToReg S.Chain VA.Loc a S.Glue,
        (DAG.getCopyToReg S.Chain VA.Loc a S.Glue).getValue 1,
        S.RetOps ++ [DAG.getRegister VA.Loc VA.getLocVT]⟩ hrest (by omega)
    refine ⟨DAG.getCopyToReg S.Chain VA.Loc a S.Glue :: copies, ?_, ?_⟩
    · rw [drop_of_getElem? OutVals i a ha]
      exact CopyThread_cons _ _ _ _ _ _ _ hthread
    · simp only [LowerReturn.loop, hVA, if_true, ha, CCValAssign.getLocReg]
      show LowerReturn.loop OutVals rest (i + 1) _ = _
      rw [hloop]
      simp only [List.getLastD_cons, List.map_cons, List.append_assoc, List.singleton_append,
        CCValAssign.getLocVT]
      congr 2
      · by_cases hr : rest = []
        · subst hr
          obtain ⟨hl, _⟩ := hthread
          have : copies = [] := List.length_eq_zero.1 (by simpa using hl)
          subst this
          simp
        · simp [hr]

/-- C8: for a return with `k` register-assigned values, `LowerReturn` builds `k`
register-copy nodes in value order (the first consuming the incoming chain and no
glue, each later one the chain and the glue, a real value, of the previous) and a
single `J2ISD::Ret`
node whose operands are: the last copy's chain (the incoming chain when `k = 0`),
the `k` destination registers in order, and the last copy's glue iff `k > 0`. -/
theorem LowerReturn_sequence (Chain : SDValue) (RVLocs : List CCValAssign)
    (OutVals : List SDValue) (hreg : ∀ VA ∈ RVLocs, VA.isRegLoc = true)
    (hlen : RVLocs.length ≤ OutVals.length) :
    ∃ copies, CopyThread Chain SDValue.null (RVLocs.map CCValAssign.Loc) OutVals copies ∧
      (∀ c ∈ copies, (c.getValue 1).hasNode = true) ∧
      LowerReturn Chain false RVLocs OutVals = .ok
        (.mk (.j2 .Ret) .none [MVT.Other]
          ([copies.getLastD Chain] ++
            RVLocs.map (fun VA => DAG.getRegister VA.Loc VA.LocVT) ++
            (if RVLocs = [] then [] else [(copies.getLastD Chain).getValue 1])) 0) := by
  obtain ⟨copies, hthread, hloop⟩ :=
    LowerReturn_loop_spec OutVals RVLocs 0 ⟨Chain, SDValue.null, [Chain]⟩ hreg (by omega)
  simp only [List.drop_zero] at hthread
  refine ⟨copies, hthread,
    CopyThread_hasNode _ _ _ _ _ hthread (by simpa using hlen), ?_⟩
  unfold LowerReturn
  simp only [Bool.false_eq_true, if_false]
  rw [hloop]
  by_cases hr : RVLocs = []
  · subst hr
    have := CopyThread_empty _ _ _ _ hthread
    subst this
    rfl
  · have hg := CopyThread_glue _ _ _ _ _ hthread (by simpa using hlen) (by simpa using hr)
    simp only [hr, if_false]
    show Except.ok (DAG.getNodeOps J2ISD.NodeType.Ret [MVT.Other] _) = _
    simp only [hg, if_true, DAG.getNodeOps, List.singleton_append, List.set_cons_zero,
      List.cons_append, List.nil_append]

/-- Witness of C8: returning the constants 5 and 6 in registers 0 and 1. -/
theorem LowerReturn_sequence_witness :
    ∃ copies, CopyThread DAG.getEntryNode SDValue.null ([regLoc 0, regLoc 1].map CCValAssign.Loc)
        [DAG.getConstant 5 MVT.i32, DAG.getConstant 6 MVT.i32] copies ∧
      (∀ c ∈ copies, (c.getValue 1).hasNode = true) ∧
      LowerReturn DAG.getEntryNode false [regLoc 0, regLoc 1]
          [DAG.getConstant 5 MVT.i32, DAG.getConstant 6 MVT.i32] = .ok
        (.mk (.j2 .Ret) .none [MVT.Other]
          ([copies.getLastD DAG.getEntryNode] ++
            [regLoc 0, regLoc 1].map (fun VA => DAG.getRegister VA.Loc VA.LocVT) ++
            (if [regLoc 0, regLoc 1] = [] then []
              else [(copies.getLastD DAG.getEntryNode).getValue 1])) 0) :=
  LowerReturn_sequence DAG.getEntryNode [regLoc 0, regLoc 1]
    [DAG.getConstant 5 MVT.i32, DAG.getConstant 6 MVT.i32] (by decide) (by decide)

/-! ## `LowerCall` -/

theorem updateCallee_ok (PtrVT : MVT) (Callee : SDValue) :
    ∃ C, LowerCall.updateCallee PtrVT Callee = .ok C := by
  unfold LowerCall.updateCallee LowerGlobalAddress
  split_ifs <;> exact ⟨_, rfl⟩

theorem updateCallee_idem (PtrVT : MVT) (Callee C : SDValue)
    (h : LowerCall.updateCallee PtrVT Callee = .ok C) :
    LowerCall.updateCallee PtrVT C = .ok C := by
  unfold LowerCall.updateCallee LowerGlobalAddress at h
  split_ifs at h with h1 h2
  · simp only [Except.ok.injEq] at h
    subst h
    rfl
  · simp only [Except.ok.injEq] at h
    subst h
    rfl
  · simp only [Except.ok.injEq] at h
    subst h
    unfold LowerCall.updateCallee
    simp [h1, h2]

theorem LowerCall_argLoop_spec (PtrVT : MVT) (OutVals : List SDValue) (rest : List CCValAssign) :
    ∀ (i : Nat) (S : CallState) (C : SDValue), (∀ VA ∈ rest, VA.isRegLoc = true) →
      i + rest.length ≤ OutVals.length →
      LowerCall.updateCallee PtrVT S.Callee = .ok C →
      ∃ copies, CopyThread S.Chain S.Glue (rest.map CCValAssign.Loc) (OutVals.drop i) copies ∧
        LowerCall.argLoop PtrVT OutVals rest i S = .ok
          ⟨copies.getLastD S.Chain,
            if rest = [] then S.Glue else (copies.getLastD S.Chain).getValue 1,
            S.RegsToPass ++ (rest.map CCValAssign.Loc).zip ((OutVals.drop i).take rest.length),
            if rest = [] then S.Callee else C⟩ := by
  induction rest with
  | nil =>
    intro i S C _ _ _
    exact ⟨[], CopyThread_nil _ _ _, by simp [LowerCall.argLoop]⟩
  | cons VA rest ih =>
    intro i S C hreg hlen hC
    have hVA : VA.isRegLoc = true := hreg VA (List.mem_cons_self _ _)
    have hrest : ∀ V ∈ rest, V.isRegLoc = true := fun V hV => hreg V (List.mem_cons_of_mem _ hV)
    simp only [List.length_cons] at hlen
    obtain ⟨a, ha⟩ := getElem?_of_lt OutVals i (by omega)
    obtain ⟨copies, hthread, hloop⟩ := ih (i + 1)
      ⟨DAG.getCopyToReg S.Chain VA.Loc a S.Glue,
        (DAG.getCopyToReg S.Chain VA.Loc a S.Glue).getValue 1,
        S.RegsToPass ++ [(VA.Loc, a)], C⟩ C hrest (by omega) (updateCallee_idem PtrVT _ _ hC)
    refine ⟨DAG.getCopyToReg S.Chain VA.Loc a S.Glue :: copies, ?_, ?_⟩
    · rw [drop_of_getElem? OutVals i a ha]
      exact CopyThread_cons _ _ _ _ _ _ _ hthread
    · simp only [LowerCall.argLoop, ha, hVA, if_true, CCValAssign.getLocReg]
      show (LowerCall.updateCallee PtrVT S.Callee >>= fun Callee =>
        LowerCall.argLoop PtrVT OutVals rest (i + 1) _) = _
      rw [hC]
      show LowerCall.argLoop PtrVT OutVals rest (i + 1) _ = _
      rw [hloop, drop_of_getElem? OutVals i a ha]
      simp only [List.getLastD_cons, List.map_cons, List.append_assoc, List.singleton_append,
        List.length_cons, List.take_succ_cons, List.zip_cons_cons, List.cons_ne_nil, if_false]
      congr 2
      · by_cases hr : rest = []
        · subst hr
          have := CopyThread_empty _ _ _ _ hthread
          subst this
          simp
        · simp [hr]
      · by_cases hr : rest = []
        · subst hr
          simp
        · simp [hr]

theorem RegsToPass_registers (ArgLocs : List CCValAssign) (OutVals : List SDValue) :
    List.map (fun elt : Nat × SDValue => DAG.getRegister elt.1 elt.2.getValueType)
        ((ArgLocs.map CCValAssign.Loc).zip (List.take ArgLocs.length OutVals))
      = List.zipWith (fun VA Arg => DAG.getRegister VA.Loc Arg.getValueType) ArgLocs OutVals := by
  induction ArgLocs generalizing OutVals with
  | nil => simp
  | cons VA rest ih =>
    cases OutVals with
    | nil => simp
    | cons a as => simp [ih as]

theorem LowerCall_resultLoop_spec (RVLocs : List CCValAssign) :
    ∀ (Chain Glue : SDValue) (InVals : List SDValue), (∀ L ∈ RVLocs, L.isRegLoc = true) →
      ∃ C I, LowerCall.resultLoop RVLocs Chain Glue InVals = .ok (C, I) ∧
        (fun V : SDValue => V.getOperand 0)^[RVLocs.length] C = Chain := by
  induction RVLocs with
  | nil =>
    intro Chain Glue InVals _
    exact ⟨Chain, InVals, rfl, rfl⟩
  | cons L rest ih =>
    intro Chain Glue InVals hreg
    have hL : L.isRegLoc = true := hreg L (List.mem_cons_self _ _)
    have hrest : ∀ V ∈ rest, V.isRegLoc = true := fun V hV => hreg V (List.mem_cons_of_mem _ hV)
    obtain ⟨C, I, hloop, hit⟩ := ih
      ((DAG.getCopyFromRegGlue Chain L.Loc L.getValVT Glue).getValue 1)
      ((DAG.getCopyFromRegGlue Chain L.Loc L.getValVT Glue).getValue 2)
      (InVals ++ [((DAG.getCopyFromRegGlue Chain L.Loc L.getValVT Glue).getValue 1).getValue 0])
      hrest
    refine ⟨C, I, ?_, ?_⟩
    · simp only [LowerCall.resultLoop, CCValAssign.getLocReg, hL, if_true]
      exact hloop
    · rw [List.length_cons, Function.iterate_succ_apply', hit]
      rfl

/-- C6: for a call whose `m` arguments are all assigned registers, `LowerCall`
builds `m` register-copy nodes in argument order (the first consuming the incoming
chain and no glue, each later one the chain and the glue, a real value, of the
previous), and the
`J2ISD::Call` node has the operands: the last copy's chain (the incoming chain when
`m = 0`), the callee, the `m` argument registers in order, and the last copy's glue
when `m > 0`.  When the return locations are registers too, the chain `LowerCall`
returns leads back to that call node through the register reads of the results. -/
theorem LowerCall_copy_sequence (D : SelectionDAG) (CLI : CallLoweringInfo)
    (ArgLocs RVLocs : List CCValAssign) (InVals : List SDValue)
    (hvar : CLI.IsVarArg = false)
    (hreg : ∀ VA ∈ ArgLocs, VA.isRegLoc = true)
    (hlen : ArgLocs.length = CLI.OutVals.length) :
    ∃ copies Callee Call,
      CopyThread CLI.Chain SDValue.null (ArgLocs.map CCValAssign.Loc) CLI.OutVals copies ∧
      (∀ c ∈ copies, (c.getValue 1).hasNode = true) ∧
      LowerCall.updateCallee D.PointerTy CLI.Callee = .ok Callee ∧
      Call = .mk (.j2 .Call) .none [MVT.Other, MVT.Glue]
          ([copies.getLastD CLI.Chain, if ArgLocs = [] then CLI.Callee else Callee] ++
            List.zipWith (fun VA Arg => DAG.getRegister VA.Loc Arg.getValueType) ArgLocs CLI.OutVals ++
            (if ArgLocs = [] then [] else [(copies.getLastD CLI.Chain).getValue 1])) 0 ∧
      LowerCall.callNode D CLI ArgLocs = .ok Call ∧
      ((∀ L ∈ RVLocs, L.isRegLoc = true) →
        ∃ R, LowerCall D CLI ArgLocs RVLocs InVals = .ok R ∧
          (fun V : SDValue => V.getOperand 0)^[RVLocs.length] R.Chain = Call) := by
  obtain ⟨Callee, hC⟩ := updateCallee_ok D.PointerTy CLI.Callee
  obtain ⟨copies, hthread, hloop⟩ := LowerCall_argLoop_spec D.PointerTy CLI.OutVals ArgLocs 0
    ⟨CLI.Chain, SDValue.null, [], CLI.Callee⟩ Callee hreg (by omega) hC
  simp only [List.drop_zero] at hthread
  have hcall : LowerCall.callNode D CLI ArgLocs = .ok
      (.mk (.j2 .Call) .none [MVT.Other, MVT.Glue]
          ([copies.getLastD CLI.Chain, if ArgLocs = [] then CLI.Callee else Callee] ++
            List.zipWith (fun VA Arg => DAG.getRegister VA.Loc Arg.getValueType) ArgLocs CLI.OutVals ++
            (if ArgLocs = [] then [] else [(copies.getLastD CLI.Chain).getValue 1])) 0) := by
    unfold LowerCall.callNode
    simp only [hvar, Bool.false_eq_true, if_false]
    rw [hloop]
    have hzip := RegsToPass_registers ArgLocs CLI.OutVals
    rw [List.drop_zero]
    by_cases hr : ArgLocs = []
    · subst hr
      have := CopyThread_empty _ _ _ _ hthread
      subst this
      rfl
    · have hg := CopyThread_glue _ _ _ _ _ hthread (by simp [hlen]) (by simpa using hr)
      simp only [hr, if_false]
      show Except.ok (DAG.getNodeOps J2ISD.NodeType.Call [MVT.Other, MVT.Glue] _) = _
      simp only [hg, if_true, DAG.getNodeOps, List.nil_append, hzip]
  refine ⟨copies, Callee, _, hthread,
    CopyThread_hasNode _ _ _ _ _ hthread (by simp [hlen]), hC, rfl, hcall, ?_⟩
  intro hret
  obtain ⟨C, I, hres, hit⟩ := LowerCall_resultLoop_spec RVLocs _
    (SDValue.getValue (.mk (.j2 .Call) .none [MVT.Other, MVT.Glue]
          ([copies.getLastD CLI.Chain, if ArgLocs = [] then CLI.Callee else Callee] ++
            List.zipWith (fun VA Arg => DAG.getRegister VA.Loc Arg.getValueType) ArgLocs CLI.OutVals ++
            (if ArgLocs = [] then [] else [(copies.getLastD CLI.Chain).getValue 1])) 0) 1) InVals hret
  refine ⟨⟨C, I, false⟩, ?_, hit⟩
  unfold LowerCall
  rw [hcall]
  show (LowerCall.resultLoop RVLocs _ _ InVals >>= fun R => Except.ok _) = _
  rw [hres]
  rfl

/-- Witness of C6: a call of the global `f` with two register arguments and one
register result. -/
theorem LowerCall_copy_sequence_witness :
    ∃ copies Callee Call,
      CopyThread DAG.getEntryNode SDValue.null ([regLoc 4, regLoc 5].map CCValAssign.Loc)
        [DAG.getConstant 5 MVT.i32, DAG.getConstant 6 MVT.i32] copies ∧
      (∀ c ∈ copies, (c.getValue 1).hasNode = true) ∧
      LowerCall.updateCallee entryDAG.PointerTy calleeGlobal = .ok Callee ∧
      Call = .mk (.j2 .Call) .none [MVT.Other, MVT.Glue]
          ([copies.getLastD DAG.getEntryNode,
              if [regLoc 4, regLoc 5] = [] then calleeGlobal else Callee] ++
            List.zipWith (fun VA Arg => DAG.getRegister VA.Loc Arg.getValueType)
              [regLoc 4, regLoc 5] [DAG.getConstant 5 MVT.i32, DAG.getConstant 6 MVT.i32] ++
            (if [regLoc 4, regLoc 5] = [] then []
              else [(copies.getLastD DAG.getEntryNode).getValue 1])) 0 ∧
      LowerCall.callNode entryDAG
        ⟨DAG.getEntryNode, calleeGlobal, false, true,
          [DAG.getConstant 5 MVT.i32, DAG.getConstant 6 MVT.i32]⟩ [regLoc 4, regLoc 5] = .ok Call ∧
      ((∀ L ∈ [regLoc 0], L.isRegLoc = true) →
        ∃ R, LowerCall entryDAG
            ⟨DAG.getEntryNode, calleeGlobal, false, true,
              [DAG.getConstant 5 MVT.i32, DAG.getConstant 6 MVT.i32]⟩
            [regLoc 4, regLoc 5] [regLoc 0] [] = .ok R ∧
          (fun V : SDValue => V.getOperand 0)^[[regLoc 0].length] R.Chain = Call) :=
  LowerCall_copy_sequence entryDAG
    ⟨DAG.getEntryNode, calleeGlobal, false, true,
      [DAG.getConstant 5 MVT.i32, DAG.getConstant 6 MVT.i32]⟩
    [regLoc 4, regLoc 5] [regLoc 0] [] rfl (by decide) rfl

/-- C7 (the code at the failing input): for a call without arguments the callee
operand of the call node is the callee as given, a global address or an external
symbol that is not resolved; with one argument the same callees are replaced by
the result of `LowerGlobalAddress` and by the target external symbol. -/
theorem LowerCall_zero_args_callee_unresolved :
    (LowerCall entryDAG ⟨DAG.getEntryNode, calleeGlobal, false, false, []⟩ [] [] []).map
        (fun R => R.Chain.getOperand 1) = .ok calleeGlobal ∧
      (LowerCall entryDAG ⟨DAG.getEntryNode, calleeExternal, false, false, []⟩ [] [] []).map
        (fun R => R.Chain.getOperand 1) = .ok calleeExternal ∧
      LowerGlobalAddress MVT.i32 calleeGlobal ≠ .ok calleeGlobal ∧
      DAG.getTargetExternalSymbol (getSymbol calleeExternal) MVT.i32 ≠ calleeExternal ∧
      (LowerCall entryDAG ⟨DAG.getEntryNode, calleeGlobal, false, false, [baseReg]⟩
          [regLoc 4] [] []).map (fun R => R.Chain.getOperand 1)
        = LowerGlobalAddress MVT.i32 calleeGlobal ∧
      (LowerCall entryDAG ⟨DAG.getEntryNode, calleeExternal, false, false, [baseReg]⟩
          [regLoc 4] [] []).map (fun R => R.Chain.getOperand 1)
        = .ok (DAG.getTargetExternalSymbol "memcpy" MVT.i32) := by
  refine ⟨rfl, rfl, ?_, ?_, rfl, rfl⟩
  · simp [LowerGlobalAddress, calleeGlobal, isaGlobalAddressSDNode, SDValue.getOpcode, DAG.getLoad]
  · simp [DAG.getTargetExternalSymbol, calleeExternal]

/-! ## `LowerFormalArguments` -/

theorem addLiveIn_mem (MF : MachineFunction) (PReg : Nat) (RC : TargetRegisterClass) :
    (PReg, (MF.addLiveIn PReg RC).1) ∈ (MF.addLiveIn PReg RC).2.LiveIns := by
  unfold MachineFunction.addLiveIn
  by_cases h : MF.getLiveInVirtReg PReg ≠ 0
  · simp only [h, ne_eq, not_false_eq_true, if_true]
    unfold MachineFunction.getLiveInVirtReg at h ⊢
    cases hf : MF.LiveIns.find? (fun p => p.1 == PReg) with
    | none => simp [hf] at h
    | some p =>
      have hm := List.mem_of_find?_eq_some hf
      have hp := List.find?_some hf
      simp only [beq_iff_eq] at hp
      simp only
      rw [← hp]
      exact hm
  · simp only [h, if_false]
    simp

theorem addLiveIn_subset (MF : MachineFunction) (PReg : Nat) (RC : TargetRegisterClass) :
    ∀ p ∈ MF.LiveIns, p ∈ (MF.addLiveIn PReg RC).2.LiveIns := by
  intro p hp
  unfold MachineFunction.addLiveIn
  by_cases h : MF.getLiveInVirtReg PReg ≠ 0
  · simp only [h, ne_eq, not_false_eq_true, if_true]
    exact hp
  · simp only [h, if_false]
    exact List.mem_append_left _ hp

theorem LowerFormalArguments_loop_spec (Chain : SDValue) (rest : List CCValAssign) :
    ∀ (MF : MachineFunction) (InVals : List SDValue),
      (∀ VA ∈ rest, VA.isRegLoc = true ∧ VA.LocVT = MVT.i32) →
      ∃ MF' reads, LowerFormalArguments.loop Chain rest MF InVals = .ok (MF', InVals ++ reads) ∧
        reads.length = rest.length ∧
        (∀ p ∈ MF.LiveIns, p ∈ MF'.LiveIns) ∧
        ∀ (i : Nat) (VA : CCValAssign), rest[i]? = some VA →
          ∃ VReg, (VA.Loc, VReg) ∈ MF'.LiveIns ∧
            reads[i]? = some (DAG.getCopyFromReg Chain VReg VA.LocVT) := by
  induction rest with
  | nil =>
    intro MF InVals _
    exact ⟨MF, [], by simp [LowerFormalArguments.loop], rfl, fun p hp => hp, by simp⟩
  | cons VA rest ih =>
    intro MF InVals hreg
    obtain ⟨hVA, hVT⟩ := hreg VA (List.mem_cons_self _ _)
    have hrest : ∀ V ∈ rest, V.isRegLoc = true ∧ V.LocVT = MVT.i32 :=
      fun V hV => hreg V (List.mem_cons_of_mem _ hV)
    obtain ⟨MF', reads, hloop, hlen, hsub, hidx⟩ :=
      ih (MF.addLiveIn VA.Loc .GPRRegClass).2
        (InVals ++ [DAG.getCopyFromReg Chain (MF.addLiveIn VA.Loc .GPRRegClass).1 VA.getLocVT]) hrest
    refine ⟨MF', DAG.getCopyFromReg Chain (MF.addLiveIn VA.Loc .GPRRegClass).1 VA.getLocVT :: reads,
      ?_, by simp [hlen], ?_, ?_⟩
    · simp only [LowerFormalArguments.loop, CCValAssign.getLocVT, hVT, getRegClassFor,
        CCValAssign.getLocReg, hVA, if_true]
      simp only [CCValAssign.getLocVT, hVT] at hloop
      show LowerFormalArguments.loop Chain rest _ _ = _
      rw [hloop]
      simp
    · intro p hp
      exact hsub p (addLiveIn_subset MF VA.Loc .GPRRegClass p hp)
    · intro i V hV
      cases i with
      | zero =>
        simp only [List.getElem?_cons_zero, Option.some.injEq] at hV
        subst hV
        exact ⟨_, hsub _ (addLiveIn_mem MF VA.Loc .GPRRegClass), by simp [CCValAssign.getLocVT]⟩
      | succ j =>
        simp only [List.getElem?_cons_succ] at hV ⊢
        exact hidx j V hV

/-- C9: for a non-variadic function whose `k` incoming arguments are assigned (`i32`)
registers, `LowerFormalArguments` returns the chain it was given, appends exactly
`k` values to `InVals` in order, the `i`-th being a `CopyFromReg` of a virtual
register that the live-in table binds to the `i`-th assigned register, and every
one of these reads has the entry chain as its chain operand. -/
theorem LowerFormalArguments_reads (Chain : SDValue) (ArgLocs : List CCValAssign)
    (D : SelectionDAG) (InVals : List SDValue)
    (hreg : ∀ VA ∈ ArgLocs, VA.isRegLoc = true ∧ VA.LocVT = MVT.i32) :
    ∃ D' reads, LowerFormalArguments Chain false ArgLocs D InVals = .ok (Chain, D', InVals ++ reads) ∧
      reads.length = ArgLocs.length ∧
      (∀ (i : Nat) (VA : CCValAssign), ArgLocs[i]? = some VA →
        ∃ VReg, (VA.Loc, VReg) ∈ D'.MF.LiveIns ∧
          reads[i]? = some (.mk (.isd .CopyFromReg) .none [VA.LocVT, MVT.Other]
            [Chain, DAG.getRegister VReg VA.LocVT] 0)) ∧
      ∀ V ∈ reads, V.getOperand 0 = Chain := by
  obtain ⟨MF', reads, hloop, hlen, _, hidx⟩ :=
    LowerFormalArguments_loop_spec Chain ArgLocs D.MF InVals hreg
  refine ⟨⟨D.PointerTy, MF'⟩, reads, ?_, hlen, hidx, ?_⟩
  · unfold LowerFormalArguments
    simp only [Bool.false_eq_true, if_false]
    rw [hloop]
    rfl
  · intro V hV
    obtain ⟨j, hj, rfl⟩ := List.getElem_of_mem hV
    have hA : ArgLocs[j]? = some ArgLocs[j] := List.getElem?_eq_getElem (by omega)
    obtain ⟨VReg, _, hr⟩ := hidx j _ hA
    rw [List.getElem?_eq_getElem hj] at hr
    simp only [Option.some.injEq] at hr
    rw [hr]
    rfl

/-- Witness of C9: two arguments in registers 4 and 5 at function entry. -/
theorem LowerFormalArguments_reads_witness :
    ∃ D' reads, LowerFormalArguments DAG.getEntryNode false [regLoc 4, regLoc 5] entryDAG []
        = .ok (DAG.getEntryNode, D', [] ++ reads) ∧
      reads.length = [regLoc 4, regLoc 5].length ∧
      (∀ (i : Nat) (VA : CCValAssign), [regLoc 4, regLoc 5][i]? = some VA →
        ∃ VReg, (VA.Loc, VReg) ∈ D'.MF.LiveIns ∧
          reads[i]? = some (.mk (.isd .CopyFromReg) .none [VA.LocVT, MVT.Other]
            [DAG.getEntryNode, DAG.getRegister VReg VA.LocVT] 0)) ∧
      ∀ V ∈ reads, V.getOperand 0 = DAG.getEntryNode :=
  LowerFormalArguments_reads DAG.getEntryNode [regLoc 4, regLoc 5] entryDAG [] (by decide)

/-! ## `LowerOperation` -/

theorem loop_not_unreachable (Opcode : J2ISD.NodeType) (Shift : Int) (CurrentSize : Nat)
    (Res : SDValue) (msg : String) :
    LowerShift.loop Opcode Shift CurrentSize Res ≠ .error (.unreachable msg) := by
  induction Shift, CurrentSize, Res using LowerShift.loop.induct Opcode with
  | case1 cs Res =>
    rw [LowerShift.loop]
    simp
  | case2 S cs Res hS h hfit ih =>
    rw [LowerShift.loop]
    simp only [hS, if_false, h, dite_true, hfit, if_true]
    exact ih
  | case3 S cs Res hS h hfit ih =>
    rw [LowerShift.loop]
    simp only [hS, if_false, h, dite_true, hfit]
    exact ih
  | case4 S cs Res hS h =>
    rw [LowerShift.loop]
    simp [hS, h]

theorem LowerShift_not_unimplemented (Opcode : J2ISD.NodeType) (Op : SDValue) :
    LowerShift Opcode Op ≠ .error (.unreachable "unimplemented operation") := by
  unfold LowerShift
  cases h : dynCastConstant (Op.getOperand 1) with
  | none =>
    simp only [h]
    intro hc
    injection hc with hc
    injection hc with hc
    exact absurd hc (by decide)
  | some n =>
    simp only [h]
    exact loop_not_unreachable _ _ _ _ _

theorem LowerConstantPool_not_unimplemented (Op : SDValue) :
    LowerConstantPool Op ≠ .error (.unreachable "unimplemented operation") := by
  unfold LowerConstantPool
  split_ifs
  · split <;> simp
  · simp

theorem LowerGlobalAddress_not_unimplemented (PtrVT : MVT) (Op : SDValue) :
    LowerGlobalAddress PtrVT Op ≠ .error (.unreachable "unimplemented operation") := by
  unfold LowerGlobalAddress
  split_ifs <;> simp

/-- C10 (counterexample): a logical-shift-left node whose amount is not a constant
has one of the four handled opcodes, and `LowerOperation` fails fatally on it. -/
theorem LowerOperation_fails_on_handled_opcode :
    (shiftOpVar .SHL).getOpcode = some (.isd .SHL) ∧
      LowerOperation entryDAG (shiftOpVar .SHL)
        = .error (.unreachable "Shift with no constants.") := by
  exact ⟨rfl, rfl⟩

/-- C10 (amended): `LowerOperation` ends in its own fatal "unimplemented operation"
exit if and only if the opcode is none of global-address, constant-pool,
logical-shift-left, logical-shift-right; for those four its outcome is the outcome
of `LowerGlobalAddress`, `LowerConstantPool`, `LowerShift<J2ISD::SHL>` and
`LowerShift<J2ISD::SRL>` respectively (a fatal failure included). -/
theorem LowerOperation_dispatch (D : SelectionDAG) (Op : SDValue) :
    (Op.getOpcode = some (.isd .GlobalAddress) →
      LowerOperation D Op = LowerGlobalAddress D.PointerTy Op) ∧
    (Op.getOpcode = some (.isd .ConstantPool) → LowerOperation D Op = LowerConstantPool Op) ∧
    (Op.getOpcode = some (.isd .SHL) → LowerOperation D Op = LowerShift .SHL Op) ∧
    (Op.getOpcode = some (.isd .SRL) → LowerOperation D Op = LowerShift .SRL Op) ∧
    (LowerOperation D Op = .error (.unreachable "unimplemented operation") ↔
      (Op.getOpcode ≠ some (.isd .GlobalAddress) ∧ Op.getOpcode ≠ some (.isd .ConstantPool) ∧
        Op.getOpcode ≠ some (.isd .SHL) ∧ Op.getOpcode ≠ some (.isd .SRL))) := by
  have hGA : Op.getOpcode = some (.isd .GlobalAddress) →
      LowerOperation D Op = LowerGlobalAddress D.PointerTy Op := by
    intro h
    simp only [LowerOperation, h]
  have hCP : Op.getOpcode = some (.isd .ConstantPool) →
      LowerOperation D Op = LowerConstantPool Op := by
    intro h
    simp only [LowerOperation, h]
  have hSHL : Op.getOpcode = some (.isd .SHL) → LowerOperation D Op = LowerShift .SHL Op := by
    intro h
    simp only [LowerOperation, h]
  have hSRL : Op.getOpcode = some (.isd .SRL) → LowerOperation D Op = LowerShift .SRL Op := by
    intro h
    simp only [LowerOperation, h]
  refine ⟨hGA, hCP, hSHL, hSRL, ?_, ?_⟩
  · intro h
    refine ⟨?_, ?_, ?_, ?_⟩
    · intro h1
      rw [hGA h1] at h
      exact LowerGlobalAddress_not_unimplemented _ _ h
    · intro h1
      rw [hCP h1] at h
      exact LowerConstantPool_not_unimplemented _ h
    · intro h1
      rw [hSHL h1] at h
      exact LowerShift_not_unimplemented _ _ h
    · intro h1
      rw [hSRL h1] at h
      exact LowerShift_not_unimplemented _ _ h
  · rintro ⟨h1, h2, h3, h4⟩
    unfold LowerOperation
    split
    · exact absurd (by assumption) h1
    · exact absurd (by assumption) h2
    · exact absurd (by assumption) h3
    · exact absurd (by assumption) h4
    · rfl

/-- Witness of the amended C10: a node with another opcode, and the four handled
opcodes on concrete nodes. -/
theorem LowerOperation_dispatch_witness :
    LowerOperation entryDAG baseReg = .error (.unreachable "unimplemented operation") ∧
      LowerOperation entryDAG calleeGlobal = LowerGlobalAddress entryDAG.PointerTy calleeGlobal ∧
      LowerOperation entryDAG (shiftOp .SHL 5) = LowerShift .SHL (shiftOp .SHL 5) ∧
      LowerOperation entryDAG (shiftOp .SRL 5) = LowerShift .SRL (shiftOp .SRL 5) :=
  ⟨(LowerOperation_dispatch entryDAG baseReg).2.2.2.2.2
      ⟨by decide, by decide, by decide, by decide⟩,
    (LowerOperation_dispatch entryDAG calleeGlobal).1 rfl,
    (LowerOperation_dispatch entryDAG (shiftOp .SHL 5)).2.2.1 rfl,
    (LowerOperation_dispatch entryDAG (shiftOp .SRL 5)).2.2.2.1 rfl⟩

/-! ## Constant-pool entries: `LowerGlobalAddress` and `EmitInstrWithCustomInserter` -/

/-- C11 (the code on both paths): the target constant-pool node that
`LowerGlobalAddress` creates for the symbol `f` carries alignment 2, while the load
built on it in the same function is 4-aligned and the pool entry that
`EmitInstrWithCustomInserter` creates for the immediate 7 carries alignment 4. -/
theorem constant_pool_alignment_two_and_four :
    (LowerGlobalAddress MVT.i32 calleeGlobal).map
        (fun V => ((V.getOperand 1).getOperand 0).getData)
      = .ok (.cp (.MachineCPVal ⟨⟨"f"⟩⟩) 2) ∧
    (LowerGlobalAddress MVT.i32 calleeGlobal).map (fun V => V.getData)
      = .ok (.mem MachinePointerInfo.ConstantPool 4) ∧
    (EmitInstrWithCustomInserter emptyPool [mov32ir 2 7] 0).map (fun R => R.1.Constants)
      = .ok [⟨CPVal.ConstVal 7, 4⟩] := by
  exact ⟨rfl, rfl, rfl⟩

theorem reachable_LowerGlobalAddress (PtrVT : MVT) (g : GlobalValue) :
    SDValue.reachable (DAG.getLoad PtrVT DAG.getEntryNode
        (DAG.getNode1 .Wrapper MVT.i32
          (DAG.getTargetConstantPool (.MachineCPVal (J2ConstantPoolValue.Create g)) PtrVT 2))
        MachinePointerInfo.ConstantPool 4)
      = [DAG.getLoad PtrVT DAG.getEntryNode
          (DAG.getNode1 .Wrapper MVT.i32
            (DAG.getTargetConstantPool (.MachineCPVal (J2ConstantPoolValue.Create g)) PtrVT 2))
          MachinePointerInfo.ConstantPool 4,
        DAG.getEntryNode,
        DAG.getNode1 .Wrapper MVT.i32
          (DAG.getTargetConstantPool (.MachineCPVal (J2ConstantPoolValue.Create g)) PtrVT 2),
        DAG.getTargetConstantPool (.MachineCPVal (J2ConstantPoolValue.Create g)) PtrVT 2,
        DAG.getUNDEF MVT.i32] := by
  simp [SDValue.reachable, SDValue.reachableList, DAG.getLoad, DAG.getEntryNode, DAG.getNode1,
    DAG.getTargetConstantPool, DAG.getUNDEF, SDValue.getValueType]

/-- C12: for every global symbol `g`, `LowerGlobalAddress` returns a load of
pointer type with alignment 4 and constant-pool provenance, chained on the entry
node, whose address is a `J2ISD::Wrapper` node on a target constant-pool node
wrapping `g`; no node reachable from the result carries a number. -/
theorem LowerGlobalAddress_load (PtrVT : MVT) (Op : SDValue) (g : GlobalValue)
    (hOp : isaGlobalAddressSDNode Op = true) (hg : getGlobal Op = g) :
    ∃ Res, LowerGlobalAddress PtrVT Op = .ok Res ∧
      Res = .mk (.isd .LOAD) (.mem MachinePointerInfo.ConstantPool 4) [PtrVT, MVT.Other]
        [DAG.getEntryNode,
          .mk (.j2 .Wrapper) .none [MVT.i32]
            [.mk (.isd .TargetConstantPool) (.cp (.MachineCPVal ⟨g⟩) 2) [PtrVT] [] 0] 0,
          DAG.getUNDEF MVT.i32] 0 ∧
      Res.getValueType = PtrVT ∧
      (∀ V ∈ Res.reachable, carriesNumber V = false) := by
  have hres : LowerGlobalAddress PtrVT Op = .ok (DAG.getLoad PtrVT DAG.getEntryNode
      (DAG.getNode1 .Wrapper MVT.i32
        (DAG.getTargetConstantPool (.MachineCPVal (J2ConstantPoolValue.Create g)) PtrVT 2))
      MachinePointerInfo.ConstantPool 4) := by
    simp only [LowerGlobalAddress, hOp, if_true, hg]
  refine ⟨_, hres, rfl, rfl, ?_⟩
  intro V hV
  rw [reachable_LowerGlobalAddress] at hV
  simp only [List.mem_cons, List.mem_singleton, List.not_mem_nil, or_false] at hV
  rcases hV with h | h | h | h | h <;> subst h <;> rfl

/-- Witness of C12 at the global-address node of the function `f`. -/
theorem LowerGlobalAddress_load_witness :
    ∃ Res, LowerGlobalAddress MVT.i32 calleeGlobal = .ok Res ∧
      Res = .mk (.isd .LOAD) (.mem MachinePointerInfo.ConstantPool 4) [MVT.i32, MVT.Other]
        [DAG.getEntryNode,
          .mk (.j2 .Wrapper) .none [MVT.i32]
            [.mk (.isd .TargetConstantPool) (.cp (.MachineCPVal ⟨⟨"f"⟩⟩) 2) [MVT.i32] [] 0] 0,
          DAG.getUNDEF MVT.i32] 0 ∧
      Res.getValueType = MVT.i32 ∧
      (∀ V ∈ Res.reachable, carriesNumber V = false) :=
  LowerGlobalAddress_load MVT.i32 calleeGlobal ⟨"f"⟩ rfl rfl

theorem search_spec (C : Int) (A : Nat) (l : List MachineConstantPoolEntry) :
    ∀ (i : Nat) (l' : List MachineConstantPoolEntry),
      MachineConstantPool.search C A l = some (i, l') →
      ∃ a, l'[i]? = some ⟨CPVal.ConstVal C, a⟩ ∧ A ≤ a := by
  induction l with
  | nil =>
    intro i l' h
    simp [MachineConstantPool.search] at h
  | cons E rest ih =>
    intro i l' h
    unfold MachineConstantPool.search at h
    by_cases hE : E.Val = CPVal.ConstVal C
    · rw [if_pos hE] at h
      simp only [Option.some.injEq, Prod.mk.injEq] at h
      obtain ⟨rfl, rfl⟩ := h
      refine ⟨if E.Alignment < A then A else E.Alignment, by simp [hE], ?_⟩
      split_ifs with hlt
      · exact Nat.le_refl _
      · omega
    · rw [if_neg hE] at h
      cases hs : MachineConstantPool.search C A rest with
      | none => simp [hs] at h
      | some R =>
        simp only [hs, Option.some.injEq, Prod.mk.injEq] at h
        obtain ⟨rfl, rfl⟩ := h
        obtain ⟨a, ha, hA⟩ := ih R.1 R.2 (by rw [hs])
        exact ⟨a, by simpa using ha, hA⟩

theorem getConstantPoolIndex_spec (Pool : MachineConstantPool) (C : Int) (A : Nat) (hA : A ≠ 0) :
    ∃ CPI Pool', Pool.getConstantPoolIndex C A = .ok (CPI, Pool') ∧
      ∃ a, Pool'.Constants[CPI]? = some ⟨CPVal.ConstVal C, a⟩ ∧ A ≤ a := by
  unfold MachineConstantPool.getConstantPoolIndex
  simp only [hA, if_false]
  cases hs : MachineConstantPool.search C A Pool.Constants with
  | none =>
    exact ⟨_, _, rfl, A, by simp, Nat.le_refl _⟩
  | some R =>
    obtain ⟨a, ha, hle⟩ := search_spec C A Pool.Constants R.1 R.2 (by rw [hs])
    exact ⟨_, _, rfl, a, ha, hle⟩

theorem insert_then_erase (MBB : List MachineInstr) (New : MachineInstr) :
    ∀ p, p < MBB.length →
      (MBB.take p ++ New :: MBB.drop p).eraseIdx (p + 1) = MBB.set p New := by
  induction MBB with
  | nil =>
    intro p hp
    simp at hp
  | cons a l ih =>
    intro p hp
    cases p with
    | zero => simp
    | succ q =>
      simp only [List.length_cons] at hp
      simp only [List.take_succ_cons, List.drop_succ_cons, List.cons_append,
        List.eraseIdx_cons_succ, List.set_cons_succ]
      rw [ih q (by omega)]

theorem getSigned32_of_i32 (v : Int) (h1 : -(2 : Int) ^ 31 ≤ v) (h2 : v < 2 ^ 31) :
    getSigned32 v = v := by
  unfold getSigned32
  norm_num at h1 h2 ⊢
  omega

/-- C13: when position `p` of the block holds the placeholder `MOV32ir r, v`,
`EmitInstrWithCustomInserter` leaves the block with position `p` replaced by the
single instruction `MOV32PCR r, CPI` and nothing else changed (same length, same
other instructions in the same order), where entry `CPI` of the constant pool holds
the 32-bit constant `v` at an alignment of at least 4. -/
theorem EmitInstrWithCustomInserter_replaces (Pool : MachineConstantPool)
    (MBB : List MachineInstr) (p r : Nat) (d : Bool) (v : Int) (more : List MachineOperand)
    (dl : Nat)
    (hMI : MBB[p]? = some ⟨.MOV32ir, .MO_Register r d :: .MO_Immediate v :: more, dl⟩) :
    ∃ Pool' CPI MBB',
      EmitInstrWithCustomInserter Pool MBB p = .ok (Pool', MBB') ∧
      MBB' = MBB.set p ⟨.MOV32PCR, [.MO_Register r true, .MO_ConstantPoolIndex CPI], dl⟩ ∧
      MBB'.length = MBB.length ∧
      MBB'[p]? = some ⟨.MOV32PCR, [.MO_Register r true, .MO_ConstantPoolIndex CPI], dl⟩ ∧
      (∀ i, i ≠ p → MBB'[i]? = MBB[i]?) ∧
      (∃ a, Pool'.Constants[CPI]? = some ⟨CPVal.ConstVal (getSigned32 v), a⟩ ∧ 4 ≤ a) ∧
      (-(2 : Int) ^ 31 ≤ v → v < 2 ^ 31 → getSigned32 v = v) := by
  have hp : p < MBB.length := by
    by_contra hc
    rw [List.getElem?_eq_none (by omega)] at hMI
    exact Option.noConfusion hMI
  obtain ⟨CPI, Pool', hpool, hentry⟩ :=
    getConstantPoolIndex_spec Pool (getSigned32 v) 4 (by decide)
  refine ⟨Pool', CPI, _, ?_, rfl, by simp, ?_, ?_, hentry, getSigned32_of_i32 v⟩
  · unfold EmitInstrWithCustomInserter
    simp only [hMI, List.getElem?_cons_succ, List.getElem?_cons_zero]
    show (Pool.getConstantPoolIndex (getSigned32 v) 4 >>= fun R => _) = _
    rw [hpool]
    show Except.ok (_, _) = _
    rw [insert_then_erase MBB _ p hp]
  · rw [List.getElem?_set_eq_of_lt _ hp]
  · intro i hi
    rw [List.getElem?_set_ne (Ne.symm hi)]

/-- Witness of C13: the placeholder `MOV32ir 2, 7` between two other instructions. -/
theorem EmitInstrWithCustomInserter_replaces_witness :
    ∃ Pool' CPI MBB',
      EmitInstrWithCustomInserter emptyPool [otherInstr 3 1, mov32ir 2 7, otherInstr 4 5] 1
        = .ok (Pool', MBB') ∧
      MBB' = [otherInstr 3 1, mov32ir 2 7, otherInstr 4 5].set 1
        ⟨.MOV32PCR, [.MO_Register 2 true, .MO_ConstantPoolIndex CPI], 0⟩ ∧
      MBB'.length = [otherInstr 3 1, mov32ir 2 7, otherInstr 4 5].length ∧
      MBB'[1]? = some ⟨.MOV32PCR, [.MO_Register 2 true, .MO_ConstantPoolIndex CPI], 0⟩ ∧
      (∀ i, i ≠ 1 → MBB'[i]? = [otherInstr 3 1, mov32ir 2 7, otherInstr 4 5][i]?) ∧
      (∃ a, Pool'.Constants[CPI]? = some ⟨CPVal.ConstVal (getSigned32 7), a⟩ ∧ 4 ≤ a) ∧
      (-(2 : Int) ^ 31 ≤ 7 → (7 : Int) < 2 ^ 31 → getSigned32 7 = 7) :=
  EmitInstrWithCustomInserter_replaces emptyPool [otherInstr 3 1, mov32ir 2 7, otherInstr 4 5]
    1 2 true 7 [] 0 rfl

/-! ## Memory locations and variadic functions -/

/-- C14 (the code at the failing input): with the second argument assigned a
memory location, `LowerCall` does not fail; it returns the very chain it returns
for the call with the first argument alone, so the second argument is in no
operand of the call sequence.  `LowerReturn` asserts on the same locations. -/
theorem LowerCall_memory_argument_dropped :
    (LowerCall entryDAG
        ⟨DAG.getEntryNode, calleeGlobal, false, false,
          [DAG.getConstant 5 MVT.i32, DAG.getConstant 6 MVT.i32]⟩
        [regLoc 4, memLoc 0] [] []).map (fun R => R.Chain)
      = (LowerCall entryDAG
        ⟨DAG.getEntryNode, calleeGlobal, false, false, [DAG.getConstant 5 MVT.i32]⟩
        [regLoc 4] [] []).map (fun R => R.Chain) ∧
    (LowerCall entryDAG
        ⟨DAG.getEntryNode, calleeGlobal, false, false,
          [DAG.getConstant 5 MVT.i32, DAG.getConstant 6 MVT.i32]⟩
        [regLoc 4, memLoc 0] [] []).map (fun R => R.Chain.operands.length) = .ok 4 ∧
    LowerReturn DAG.getEntryNode false [regLoc 4, memLoc 0]
        [DAG.getConstant 5 MVT.i32, DAG.getConstant 6 MVT.i32]
      = .error (.assertion "Return in memory is not supported!") := by
  exact ⟨rfl, rfl, rfl⟩

theorem LowerReturn_loop_memory (OutVals : List SDValue) (rest : List CCValAssign) :
    ∀ (i : Nat) (S : RetState), (∃ VA ∈ rest, VA.isRegLoc = false) →
      ∃ e, LowerReturn.loop OutVals rest i S = .error e := by
  induction rest with
  | nil =>
    intro i S h
    obtain ⟨VA, hVA, _⟩ := h
    simp at hVA
  | cons VA rest ih =>
    intro i S h
    by_cases hreg : VA.isRegLoc = true
    · have htail : ∃ V ∈ rest, V.isRegLoc = false := by
        obtain ⟨V, hV, hVm⟩ := h
        rcases List.mem_cons.1 hV with h1 | h1
        · subst h1
          rw [hreg] at hVm
          exact Bool.noConfusion hVm
        · exact ⟨V, h1, hVm⟩
      cases ha : OutVals[i]? with
      | none => exact ⟨.assertion "idx < size()", by simp only [LowerReturn.loop, hreg, if_true, ha]⟩
      | some a =>
        obtain ⟨e, he⟩ := ih (i + 1)
          ⟨DAG.getCopyToReg S.Chain VA.Loc a S.Glue,
            (DAG.getCopyToReg S.Chain VA.Loc a S.Glue).getValue 1,
            S.RetOps ++ [DAG.getRegister VA.Loc VA.getLocVT]⟩ htail
        refine ⟨e, ?_⟩
        simp only [LowerReturn.loop, hreg, if_true, ha, CCValAssign.getLocReg]
        exact he
    · exact ⟨.assertion "Return in memory is not supported!",
        by simp only [LowerReturn.loop, hreg, Bool.false_eq_true, if_false]⟩

theorem LowerReturn_loop_memory_message (OutVals : List SDValue) (rest : List CCValAssign) :
    ∀ (i : Nat) (S : RetState), (∃ VA ∈ rest, VA.isRegLoc = false) →
      i + rest.length ≤ OutVals.length →
      LowerReturn.loop OutVals rest i S
        = .error (.assertion "Return in memory is not supported!") := by
  induction rest with
  | nil =>
    intro i S h
    obtain ⟨VA, hVA, _⟩ := h
    simp at hVA
  | cons VA rest ih =>
    intro i S h hlen
    simp only [List.length_cons] at hlen
    by_cases hreg : VA.isRegLoc = true
    · have htail : ∃ V ∈ rest, V.isRegLoc = false := by
        obtain ⟨V, hV, hVm⟩ := h
        rcases List.mem_cons.1 hV with h1 | h1
        · subst h1
          rw [hreg] at hVm
          exact Bool.noConfusion hVm
        · exact ⟨V, h1, hVm⟩
      obtain ⟨a, ha⟩ := getElem?_of_lt OutVals i (by omega)
      have he := ih (i + 1)
        ⟨DAG.getCopyToReg S.Chain VA.Loc a S.Glue,
          (DAG.getCopyToReg S.Chain VA.Loc a S.Glue).getValue 1,
          S.RetOps ++ [DAG.getRegister VA.Loc VA.getLocVT]⟩ htail (by omega)
      simp only [LowerReturn.loop, hreg, if_true, ha, CCValAssign.getLocReg]
      exact he
    · simp only [LowerReturn.loop, hreg, Bool.false_eq_true, if_false]

/-- C15: when some return value is assigned a location that is not a register,
`LowerReturn` fails fatally, so no return node is built; with one value per
location and no variadic flag the failure is the assertion
"Return in memory is not supported!". -/
theorem LowerReturn_memory_fatal (Chain : SDValue) (isVarArg : Bool)
    (RVLocs : List CCValAssign) (OutVals : List SDValue)
    (hmem : ∃ VA ∈ RVLocs, VA.isRegLoc = false) :
    (∃ e, LowerReturn Chain isVarArg RVLocs OutVals = .error e) ∧
    (isVarArg = false → RVLocs.length ≤ OutVals.length →
      LowerReturn Chain isVarArg RVLocs OutVals
        = .error (.assertion "Return in memory is not supported!")) := by
  constructor
  · unfold LowerReturn
    by_cases hv : isVarArg = true
    · exact ⟨.assertion "Variable arguments not supported.", by simp only [hv, if_true]⟩
    · obtain ⟨e, he⟩ := LowerReturn_loop_memory OutVals RVLocs 0
        ⟨Chain, SDValue.null, [Chain]⟩ hmem
      refine ⟨e, ?_⟩
      simp only [hv, Bool.false_eq_true, if_false]
      rw [he]
      rfl
  · intro hv hlen
    unfold LowerReturn
    simp only [hv, Bool.false_eq_true, if_false]
    rw [LowerReturn_loop_memory_message OutVals RVLocs 0 _ hmem (by omega)]
    rfl

/-- Witness of C15: the second of two return values is assigned a stack slot. -/
theorem LowerReturn_memory_fatal_witness :
    (∃ e, LowerReturn DAG.getEntryNode false [regLoc 0, memLoc 0]
        [DAG.getConstant 5 MVT.i32, DAG.getConstant 6 MVT.i32] = .error e) ∧
    (false = false →
      [regLoc 0, memLoc 0].length ≤ [DAG.getConstant 5 MVT.i32, DAG.getConstant 6 MVT.i32].length →
      LowerReturn DAG.getEntryNode false [regLoc 0, memLoc 0]
          [DAG.getConstant 5 MVT.i32, DAG.getConstant 6 MVT.i32]
        = .error (.assertion "Return in memory is not supported!")) :=
  LowerReturn_memory_fatal DAG.getEntryNode false [regLoc 0, memLoc 0]
    [DAG.getConstant 5 MVT.i32, DAG.getConstant 6 MVT.i32] ⟨memLoc 0, by decide, rfl⟩

/-- C16: with the variadic flag set, `LowerFormalArguments`, `LowerReturn` and
`LowerCall` each end in the assertion "Variable arguments not supported.", the
first statement that can fail, whatever the other inputs are; no node, live-in or
result value comes back. -/
theorem variadic_fatal (Chain Callee : SDValue) (ArgLocs RVLocs : List CCValAssign)
    (D : SelectionDAG) (InVals OutVals : List SDValue) (IsTailCall : Bool) :
    LowerFormalArguments Chain true ArgLocs D InVals
      = .error (.assertion "Variable arguments not supported.") ∧
    LowerReturn Chain true RVLocs OutVals
      = .error (.assertion "Variable arguments not supported.") ∧
    LowerCall D ⟨Chain, Callee, true, IsTailCall, OutVals⟩ ArgLocs RVLocs InVals
      = .error (.assertion "Variable arguments not supported.") := by
  exact ⟨rfl, rfl, rfl⟩

/-! ## Termination of the decomposition loop -/

/-- C17: for every constant amount `n ≥ 0` the loop of `LowerShift`, started at
index 0 with the remainder left by `InitShift`, ends with a result: the bound
assertion never fails, and `LowerShift` returns that result.  The same holds from
every state with a non-negative remainder and an index below 4. -/
theorem LowerShift_loop_terminates (Opcode : J2ISD.NodeType) (Op : SDValue) (n : Int)
    (hR : dynCastConstant (Op.getOperand 1) = some n) (h0 : 0 ≤ n) :
    (∃ Res, LowerShift.loop Opcode (InitShift n).2 0
        (DAG.getNode2 Opcode MVT.i32 (Op.getOperand 0) (DAG.getConstant (InitShift n).1 MVT.i32))
          = .ok Res ∧
      LowerShift Opcode Op = .ok Res) ∧
    LowerShift Opcode Op ≠ .error (.assertion "Array out of bounds.") ∧
    (∀ (Shift : Int) (CurrentSize : Nat) (Res0 : SDValue), 0 ≤ Shift → CurrentSize < 4 →
      ∃ Res, LowerShift.loop Opcode Shift CurrentSize Res0 = .ok Res) := by
  refine ⟨⟨_, loop_greedy Opcode _ 0 _ (InitShift_snd_nonneg n h0) (by norm_num), ?_⟩, ?_, ?_⟩
  · unfold LowerShift
    simp only [hR]
    exact loop_greedy Opcode _ 0 _ (InitShift_snd_nonneg n h0) (by norm_num)
  · rw [LowerShift_nonneg Opcode Op n hR h0]
    intro h
    exact Except.noConfusion h
  · intro Shift cs Res0 hS hcs
    exact ⟨_, loop_greedy Opcode Shift cs Res0 hS hcs⟩

/-- Witness of C17 at `SHL baseReg, 31`. -/
theorem LowerShift_loop_terminates_witness :
    (∃ Res, LowerShift.loop .SHL (InitShift 31).2 0
        (DAG.getNode2 .SHL MVT.i32 ((shiftOp .SHL 31).getOperand 0)
          (DAG.getConstant (InitShift 31).1 MVT.i32)) = .ok Res ∧
      LowerShift .SHL (shiftOp .SHL 31) = .ok Res) ∧
    LowerShift .SHL (shiftOp .SHL 31) ≠ .error (.assertion "Array out of bounds.") ∧
    (∀ (Shift : Int) (CurrentSize : Nat) (Res0 : SDValue), 0 ≤ Shift → CurrentSize < 4 →
      ∃ Res, LowerShift.loop .SHL Shift CurrentSize Res0 = .ok Res) :=
  LowerShift_loop_terminates .SHL (shiftOp .SHL 31) 31 rfl (by decide)

/-! ## The register reads of `LowerCall` -/

theorem ReadThread_nil (Chain Glue : SDValue) : ReadThread Chain Glue [] [] := by
  refine ⟨rfl, ?_⟩
  intro i L h
  simp at h

theorem ReadThread_cons (Chain Glue : SDValue) (L : CCValAssign) (Locs : List CCValAssign)
    (reads : List SDValue)
    (h : ReadThread ((DAG.getCopyFromRegGlue Chain L.Loc L.ValVT Glue).getValue 1)
      ((DAG.getCopyFromRegGlue Chain L.Loc L.ValVT Glue).getValue 2) Locs reads) :
    ReadThread Chain Glue (L :: Locs) (DAG.getCopyFromRegGlue Chain L.Loc L.ValVT Glue :: reads) := by
  obtain ⟨hlen, hidx⟩ := h
  refine ⟨by simp [hlen], ?_⟩
  intro i L' hL
  cases i with
  | zero =>
    simp only [List.getElem?_cons_zero, Option.some.injEq] at hL
    subst hL
    simp
  | succ j =>
    simp only [List.getElem?_cons_succ] at hL
    have := hidx j L' hL
    simp only [List.getElem?_cons_succ, this, Nat.add_sub_cancel, Nat.succ_ne_zero, if_false]
    cases j with
    | zero => simp
    | succ k => simp

theorem ReadThread_hasNode (Chain Glue : SDValue) (Locs : List CCValAssign) (reads : List SDValue)
    (h : ReadThread Chain Glue Locs reads) :
    ∀ V ∈ reads, V.getOpcode = some (.isd .CopyFromReg) ∧ V.getValue 0 = V ∧
      (V.getValue 1).hasNode = true ∧ (V.getValue 2).hasNode = true := by
  intro V hV
  obtain ⟨hl, hidx⟩ := h
  obtain ⟨j, hj, rfl⟩ := List.getElem_of_mem hV
  have hL : Locs[j]? = some Locs[j] := List.getElem?_eq_getElem (by omega)
  have h1 := hidx j _ hL
  rw [List.getElem?_eq_getElem hj] at h1
  simp only [Option.some.injEq] at h1
  rw [h1]
  exact ⟨rfl, rfl, rfl, rfl⟩

theorem LowerCall_resultLoop_reads (RVLocs : List CCValAssign) :
    ∀ (Chain Glue : SDValue) (InVals : List SDValue), (∀ L ∈ RVLocs, L.isRegLoc = true) →
      ∃ reads, ReadThread Chain Glue RVLocs reads ∧
        LowerCall.resultLoop RVLocs Chain Glue InVals = .ok
          (if RVLocs = [] then Chain else (reads.getLastD Chain).getValue 1, InVals ++ reads) := by
  induction RVLocs with
  | nil =>
    intro Chain Glue InVals _
    exact ⟨[], ReadThread_nil _ _, by simp [LowerCall.resultLoop]⟩
  | cons L rest ih =>
    intro Chain Glue InVals hreg
    have hL : L.isRegLoc = true := hreg L (List.mem_cons_self _ _)
    have hrest : ∀ V ∈ rest, V.isRegLoc = true := fun V hV => hreg V (List.mem_cons_of_mem _ hV)
    obtain ⟨reads, hthread, hloop⟩ := ih
      ((DAG.getCopyFromRegGlue Chain L.Loc L.ValVT Glue).getValue 1)
      ((DAG.getCopyFromRegGlue Chain L.Loc L.ValVT Glue).getValue 2)
      (InVals ++ [DAG.getCopyFromRegGlue Chain L.Loc L.ValVT Glue]) hrest
    refine ⟨DAG.getCopyFromRegGlue Chain L.Loc L.ValVT Glue :: reads,
      ReadThread_cons _ _ _ _ _ hthread, ?_⟩
    simp only [LowerCall.resultLoop, CCValAssign.getLocReg, hL, if_true, CCValAssign.getValVT]
    show LowerCall.resultLoop rest _ _ (InVals ++ [DAG.getCopyFromRegGlue Chain L.Loc L.ValVT Glue])
      = _
    rw [hloop]
    simp only [List.cons_ne_nil, if_false, List.getLastD_cons, List.append_assoc,
      List.singleton_append]
    congr 2
    by_cases hr : rest = []
    · subst hr
      have : reads = [] := List.length_eq_zero.1 hthread.1
      subst this
      simp
    · have hne : reads ≠ [] := by
        intro hc
        subst hc
        exact hr (List.length_eq_zero.1 hthread.1.symm)
      obtain ⟨c, cs, rfl⟩ := List.exists_cons_of_ne_nil hne
      simp only [hr, if_false, List.getLastD_cons]

theorem callNode_hasNode (D : SelectionDAG) (CLI : CallLoweringInfo) (ArgLocs : List CCValAssign)
    (Call : SDValue) (h : LowerCall.callNode D CLI ArgLocs = .ok Call) :
    Call.getOpcode = some (.j2 .Call) ∧ Call.getValue 0 = Call ∧
      (Call.getValue 1).hasNode = true := by
  unfold LowerCall.callNode at h
  split_ifs at h with hv
  cases hl : LowerCall.argLoop D.PointerTy CLI.OutVals ArgLocs 0
      ⟨CLI.Chain, SDValue.null, [], CLI.Callee⟩ with
  | error e =>
    rw [hl] at h
    exact Except.noConfusion h
  | ok S =>
    rw [hl] at h
    have h2 : DAG.getNodeOps J2ISD.NodeType.Call [MVT.Other, MVT.Glue]
        (if S.Glue.hasNode = true then
          [S.Chain, S.Callee] ++
            S.RegsToPass.map (fun elt => DAG.getRegister elt.1 elt.2.getValueType) ++ [S.Glue]
        else [S.Chain, S.Callee] ++
            S.RegsToPass.map (fun elt => DAG.getRegister elt.1 elt.2.getValueType)) = Call := by
      injection h
    rw [← h2]
    exact ⟨rfl, rfl, rfl⟩

/-- C18: once the call node `Call` is built and the `r` return locations are
registers, `LowerCall` appends exactly `r` values to `InVals` in location order,
the `i`-th being the value result of a `CopyFromReg` of the `i`-th return register;
the first read consumes the chain and glue results of `Call`, each later read the
chain and glue results of the previous read, and the returned chain is the chain
result of the last read (`Call` itself when `r = 0`). -/
theorem LowerCall_result_reads (D : SelectionDAG) (CLI : CallLoweringInfo)
    (ArgLocs RVLocs : List CCValAssign) (InVals : List SDValue) (Call : SDValue)
    (hcall : LowerCall.callNode D CLI ArgLocs = .ok Call)
    (hret : ∀ L ∈ RVLocs, L.isRegLoc = true) :
    ∃ reads R, ReadThread Call (Call.getValue 1) RVLocs reads ∧
      LowerCall D CLI ArgLocs RVLocs InVals = .ok R ∧
      R.InVals = InVals ++ reads ∧
      reads.length = RVLocs.length ∧
      R.Chain = (if RVLocs = [] then Call else (reads.getLastD Call).getValue 1) ∧
      Call.getOpcode = some (.j2 .Call) ∧ Call.getValue 0 = Call ∧
      (Call.getValue 1).hasNode = true ∧
      (∀ V ∈ reads, V.getOpcode = some (.isd .CopyFromReg) ∧ V.getValue 0 = V ∧
        (V.getValue 1).hasNode = true ∧ (V.getValue 2).hasNode = true) := by
  obtain ⟨reads, hthread, hloop⟩ :=
    LowerCall_resultLoop_reads RVLocs Call (Call.getValue 1) InVals hret
  obtain ⟨hop, hzero, hglue⟩ := callNode_hasNode D CLI ArgLocs Call hcall
  refine ⟨reads, ⟨_, InVals ++ reads, false⟩, hthread, ?_, rfl, hthread.1, rfl, hop, hzero,
    hglue, ReadThread_hasNode _ _ _ _ hthread⟩
  unfold LowerCall
  rw [hcall]
  show (LowerCall.resultLoop RVLocs Call (Call.getValue 1) InVals >>= fun R => Except.ok _) = _
  rw [hloop]
  rfl

/-- Witness of C18: a call of `f` with one register argument and two register
results. -/
theorem LowerCall_result_reads_witness :
    ∃ Call reads R,
      LowerCall.callNode entryDAG
        ⟨DAG.getEntryNode, calleeGlobal, false, false, [baseReg]⟩ [regLoc 4] = .ok Call ∧
      ReadThread Call (Call.getValue 1) [regLoc 0, regLoc 1] reads ∧
      LowerCall entryDAG ⟨DAG.getEntryNode, calleeGlobal, false, false, [baseReg]⟩
        [regLoc 4] [regLoc 0, regLoc 1] [] = .ok R ∧
      R.InVals = [] ++ reads ∧
      reads.length = [regLoc 0, regLoc 1].length ∧
      R.Chain = (if [regLoc 0, regLoc 1] = [] then Call else (reads.getLastD Call).getValue 1) :=
  match LowerCall_result_reads entryDAG
      ⟨DAG.getEntryNode, calleeGlobal, false, false, [baseReg]⟩ [regLoc 4] [regLoc 0, regLoc 1] []
      _ rfl (by decide) with
  | ⟨reads, R, h1, h2, h3, h4, h5, _⟩ => ⟨_, reads, R, rfl, h1, h2, h3, h4, h5⟩

/-! ## Length and order of the plan -/

theorem decomposition_length_bound (q : List Int)
    (hq : ∀ k ∈ q, k ∈ ([1, 2, 8, 16] : List Int)) :
    0 ≤ q.sum ∧ q.sum / 16 + q.sum % 16 / 8 + q.sum % 8 / 2 + q.sum % 2 ≤ (q.length : Int) := by
  induction q with
  | nil => simp
  | cons k q ih =>
    have hk := hq k (List.mem_cons_self _ _)
    obtain ⟨h0, hb⟩ := ih (fun j hj => hq j (List.mem_cons_of_mem _ hj))
    simp only [List.mem_cons, List.mem_singleton, List.not_mem_nil, or_false] at hk
    simp only [List.sum_cons, List.length_cons, Nat.cast_add, Nat.cast_one]
    rcases hk with h | h | h | h <;> subst h <;> constructor <;> omega

theorem specPlan_length (n : Nat) (h1 : 1 ≤ n) (h31 : n ≤ 31) (h24 : n ≠ 24) :
    ((specPlan n).length : Int)
      = (n : Int) / 16 + (n : Int) % 16 / 8 + (n : Int) % 8 / 2 + (n : Int) % 2 := by
  interval_cases n <;> first | exact absurd rfl h24 | rfl

/-- C19: for a constant amount `n` in `[1, 31]` other than 24 no sequence of
magnitudes from `{1, 2, 8, 16}` that sums to `n` is shorter than the plan
`LowerShift` emits; for `n = 24` the plan is `[2, 16, 2, 2, 2]`, five nodes, although
`[16, 8]` sums to 24 with two. -/
theorem LowerShift_plan_minimal (Opcode : J2ISD.NodeType) (Op : SDValue) (n : Nat)
    (hR : dynCastConstant (Op.getOperand 1) = some (n : Int)) (h1 : 1 ≤ n) (h31 : n ≤ 31) :
    ∃ Res, LowerShift Opcode Op = .ok Res ∧
      (n ≠ 24 → ∀ q : List Int, (∀ k ∈ q, k ∈ ([1, 2, 8, 16] : List Int)) → q.sum = (n : Int) →
        (emittedShifts Opcode (Op.getOperand 0) Res).length ≤ q.length) ∧
      (n = 24 → emittedShifts Opcode (Op.getOperand 0) Res = [2, 16, 2, 2, 2] ∧
        (∀ k ∈ ([16, 8] : List Int), k ∈ ([1, 2, 8, 16] : List Int)) ∧
        ([16, 8] : List Int).sum = 24 ∧
        ([16, 8] : List Int).length < (emittedShifts Opcode (Op.getOperand 0) Res).length) := by
  refine ⟨_, LowerShift_nonneg Opcode Op n hR (by omega), ?_, ?_⟩
  · intro h24 q hq hsum
    rw [emittedShifts_applyShifts, ← specPlan_eq n h1 h31, List.length_map]
    have hlen := specPlan_length n h1 h31 h24
    obtain ⟨_, hb⟩ := decomposition_length_bound q hq
    rw [hsum] at hb
    omega
  · intro h24
    subst h24
    rw [emittedShifts_applyShifts, ← specPlan_eq 24 h1 h31]
    exact ⟨by decide, by decide, by decide, by decide⟩

/-- Witness of C19 at `SHL baseReg, 26`, whose plan `[2, 16, 8]` is minimal. -/
theorem LowerShift_plan_minimal_witness :
    ∃ Res, LowerShift .SHL (shiftOp .SHL 26) = .ok Res ∧
      (26 ≠ 24 → ∀ q : List Int, (∀ k ∈ q, k ∈ ([1, 2, 8, 16] : List Int)) →
        q.sum = ((26 : Nat) : Int) →
        (emittedShifts .SHL ((shiftOp .SHL 26).getOperand 0) Res).length ≤ q.length) ∧
      (26 = 24 → emittedShifts .SHL ((shiftOp .SHL 26).getOperand 0) Res = [2, 16, 2, 2, 2] ∧
        (∀ k ∈ ([16, 8] : List Int), k ∈ ([1, 2, 8, 16] : List Int)) ∧
        ([16, 8] : List Int).sum = 24 ∧
        ([16, 8] : List Int).length
          < (emittedShifts .SHL ((shiftOp .SHL 26).getOperand 0) Res).length) :=
  LowerShift_plan_minimal .SHL (shiftOp .SHL 26) 26 rfl (by decide) (by decide)

theorem InitShift_snd_even (n : Int) (h0 : 0 ≤ n) : (InitShift n).2 % 2 = 0 := by
  have h3 : n.tmod 2 = n % 2 := Int.tmod_eq_emod h0 (by norm_num)
  unfold InitShift
  split_ifs with h1 h2
  · rfl
  · show (n - 2) % 2 = 0
    omega
  · show (n - 1) % 2 = 0
    omega

theorem greedy_even (r : Nat) (hr : r % 2 = 0) :
    greedy [16, 8, 2, 1] r
      = List.replicate (r / 16) 16 ++ (List.replicate (r % 16 / 8) 8 ++
          List.replicate (r % 16 % 8 / 2) 2) := by
  have h : r % 16 % 8 % 2 = 0 := by omega
  simp [greedy, h]

/-- C20: for every constant amount `n ≥ 0` the remainder left by `InitShift` is
even, every magnitude emitted after the first one is 16, 8 or 2, these later
magnitudes are in non-increasing order, and magnitude 1 is not among them. -/
theorem LowerShift_later_magnitudes (Opcode : J2ISD.NodeType) (Op : SDValue) (n : Int)
    (hR : dynCastConstant (Op.getOperand 1) = some n) (h0 : 0 ≤ n) :
    ∃ Res, LowerShift Opcode Op = .ok Res ∧
      (InitShift n).2 % 2 = 0 ∧
      (emittedShifts Opcode (Op.getOperand 0) Res).head? = some (InitShift n).1 ∧
      (∀ k ∈ (emittedShifts Opcode (Op.getOperand 0) Res).tail, k ∈ ([16, 8, 2] : List Int)) ∧
      (emittedShifts Opcode (Op.getOperand 0) Res).tail.Pairwise (fun a b => b ≤ a) ∧
      (1 : Int) ∉ (emittedShifts Opcode (Op.getOperand 0) Res).tail := by
  have heven := InitShift_snd_even n h0
  have hnn := InitShift_snd_nonneg n h0
  have hr : (InitShift n).2.toNat % 2 = 0 := by omega
  have htail : (emittedShifts Opcode (Op.getOperand 0)
      (applyShifts Opcode (Op.getOperand 0)
        ((InitShift n).1 ::
          (greedy [16, 8, 2, 1] (InitShift n).2.toNat).map (Nat.cast : Nat → Int)))).tail
      = List.replicate ((InitShift n).2.toNat / 16) (16 : Int) ++
          (List.replicate ((InitShift n).2.toNat % 16 / 8) (8 : Int) ++
            List.replicate ((InitShift n).2.toNat % 16 % 8 / 2) (2 : Int)) := by
    rw [emittedShifts_applyShifts, List.tail_cons, greedy_even _ hr]
    simp
  refine ⟨_, LowerShift_nonneg Opcode Op n hR h0, heven, ?_, ?_, ?_, ?_⟩
  · rw [emittedShifts_applyShifts]
    rfl
  · intro k hk
    rw [htail] at hk
    simp only [List.mem_append, List.mem_replicate] at hk
    rcases hk with ⟨_, h⟩ | ⟨_, h⟩ | ⟨_, h⟩ <;> subst h <;> decide
  · rw [htail]
    simp only [List.pairwise_append, List.pairwise_replicate, List.mem_append,
      List.mem_replicate]
    refine ⟨Or.inr (Int.le_refl _), ⟨Or.inr (Int.le_refl _), Or.inr (Int.le_refl _), ?_⟩, ?_⟩
    · rintro a ⟨_, rfl⟩ b ⟨_, rfl⟩
      decide
    · rintro a ⟨_, rfl⟩ b (⟨_, rfl⟩ | ⟨_, rfl⟩) <;> decide
  · rw [htail]
    simp only [List.mem_append, List.mem_replicate]
    rintro (⟨_, h⟩ | ⟨_, h⟩ | ⟨_, h⟩) <;> exact absurd h (by decide)

/-- Witness of C20 at `SRL baseReg, 31`, whose plan is `[1, 16, 8, 2, 2, 2]`. -/
theorem LowerShift_later_magnitudes_witness :
    ∃ Res, LowerShift .SRL (shiftOp .SRL 31) = .ok Res ∧
      (InitShift 31).2 % 2 = 0 ∧
      (emittedShifts .SRL ((shiftOp .SRL 31).getOperand 0) Res).head? = some (InitShift 31).1 ∧
      (∀ k ∈ (emittedShifts .SRL ((shiftOp .SRL 31).getOperand 0) Res).tail,
        k ∈ ([16, 8, 2] : List Int)) ∧
      (emittedShifts .SRL ((shiftOp .SRL 31).getOperand 0) Res).tail.Pairwise
        (fun a b => b ≤ a) ∧
      (1 : Int) ∉ (emittedShifts .SRL ((shiftOp .SRL 31).getOperand 0) Res).tail :=
  LowerShift_later_magnitudes .SRL (shiftOp .SRL 31) 31 rfl (by decide)

/-! ## The callee operand of the call node -/

theorem LowerCall_argLoop_callee (PtrVT : MVT) (OutVals : List SDValue)
    (rest : List CCValAssign) :
    ∀ (i : Nat) (S : CallState) (C : SDValue), i + rest.length ≤ OutVals.length →
      LowerCall.updateCallee PtrVT S.Callee = .ok C →
      ∃ S', LowerCall.argLoop PtrVT OutVals rest i S = .ok S' ∧
        S'.Callee = if rest = [] then S.Callee else C := by
  induction rest with
  | nil =>
    intro i S C _ _
    exact ⟨S, by simp [LowerCall.argLoop], by simp⟩
  | cons VA rest ih =>
    intro i S C hlen hC
    simp only [List.length_cons] at hlen
    obtain ⟨a, ha⟩ := getElem?_of_lt OutVals i (by omega)
    by_cases hreg : VA.isRegLoc = true
    · obtain ⟨S', hloop, hcallee⟩ := ih (i + 1)
        ⟨DAG.getCopyToReg S.Chain VA.Loc a S.Glue,
          (DAG.getCopyToReg S.Chain VA.Loc a S.Glue).getValue 1,
          S.RegsToPass ++ [(VA.Loc, a)], C⟩ C (by omega) (updateCallee_idem PtrVT _ _ hC)
      refine ⟨S', ?_, ?_⟩
      · simp only [LowerCall.argLoop, ha, hreg, if_true, CCValAssign.getLocReg]
        show (LowerCall.updateCallee PtrVT S.Callee >>= fun Callee =>
          LowerCall.argLoop PtrVT OutVals rest (i + 1) _) = _
        rw [hC]
        exact hloop
      · rw [hcallee]
        simp
    · obtain ⟨S', hloop, hcallee⟩ := ih (i + 1)
        ⟨S.Chain, S.Glue, S.RegsToPass, C⟩ C (by omega) (updateCallee_idem PtrVT _ _ hC)
      refine ⟨S', ?_, ?_⟩
      · simp only [LowerCall.argLoop, ha, hreg, Bool.false_eq_true, if_false]
        show (LowerCall.updateCallee PtrVT S.Callee >>= fun Callee =>
          LowerCall.argLoop PtrVT OutVals rest (i + 1) _) = _
        rw [hC]
        exact hloop
      · rw [hcallee]
        simp

theorem LowerGlobalAddress_not_global (PtrVT : MVT) (Callee Res : SDValue)
    (h : LowerGlobalAddress PtrVT Callee = .ok Res) :
    isaGlobalAddressSDNode Res = false ∧ isaExternalSymbolSDNode Res = false := by
  unfold LowerGlobalAddress at h
  split_ifs at h
  simp only [Except.ok.injEq] at h
  subst h
  exact ⟨rfl, rfl⟩

/-- C21: the callee is resolved inside the argument loop of `LowerCall`.  With at
least one argument location and a global-address callee, the callee operand of the
call node is `LowerGlobalAddress` of the original callee, applied once: the result
is no global-address node and the update of later iterations leaves it as it is.
With no argument location the callee operand is the original callee, unchanged. -/
theorem LowerCall_callee_operand (D : SelectionDAG) (CLI : CallLoweringInfo)
    (ArgLocs : List CCValAssign)
    (hvar : CLI.IsVarArg = false) (hlen : ArgLocs.length ≤ CLI.OutVals.length) :
    ∃ Call, LowerCall.callNode D CLI ArgLocs = .ok Call ∧
      (∀ InVals, LowerCall D CLI ArgLocs [] InVals = .ok ⟨Call, InVals, false⟩) ∧
      Call.getOpcode = some (.j2 .Call) ∧
      (ArgLocs = [] → Call.getOperand 1 = CLI.Callee) ∧
      (ArgLocs ≠ [] → isaGlobalAddressSDNode CLI.Callee = true →
        ∃ Res, LowerGlobalAddress D.PointerTy CLI.Callee = .ok Res ∧
          Call.getOperand 1 = Res ∧
          isaGlobalAddressSDNode Res = false ∧
          LowerCall.updateCallee D.PointerTy Res = .ok Res) := by
  obtain ⟨C, hC⟩ := updateCallee_ok D.PointerTy CLI.Callee
  obtain ⟨S, hloop, hcallee⟩ := LowerCall_argLoop_callee D.PointerTy CLI.OutVals ArgLocs 0
    ⟨CLI.Chain, SDValue.null, [], CLI.Callee⟩ C (by omega) hC
  have hcall : LowerCall.callNode D CLI ArgLocs = .ok
      (DAG.getNodeOps .Call [MVT.Other, MVT.Glue]
        (if S.Glue.hasNode = true then
          [S.Chain, S.Callee] ++
            S.RegsToPass.map (fun elt => DAG.getRegister elt.1 elt.2.getValueType) ++ [S.Glue]
        else [S.Chain, S.Callee] ++
            S.RegsToPass.map (fun elt => DAG.getRegister elt.1 elt.2.getValueType))) := by
    unfold LowerCall.callNode
    simp only [hvar, Bool.false_eq_true, if_false]
    rw [hloop]
    rfl
  have hop1 : (DAG.getNodeOps .Call [MVT.Other, MVT.Glue]
        (if S.Glue.hasNode = true then
          [S.Chain, S.Callee] ++
            S.RegsToPass.map (fun elt => DAG.getRegister elt.1 elt.2.getValueType) ++ [S.Glue]
        else [S.Chain, S.Callee] ++
            S.RegsToPass.map (fun elt => DAG.getRegister elt.1 elt.2.getValueType))).getOperand 1
      = S.Callee := by
    split_ifs <;> rfl
  refine ⟨_, hcall, ?_, rfl, ?_, ?_⟩
  · intro InVals
    unfold LowerCall
    rw [hcall]
    rfl
  · intro hnil
    rw [hop1, hcallee]
    simp [hnil]
  · intro hne hga
    have hres : LowerCall.updateCallee D.PointerTy CLI.Callee
        = LowerGlobalAddress D.PointerTy CLI.Callee := by
      unfold LowerCall.updateCallee
      simp only [hga, if_true]
    rw [hres] at hC
    refine ⟨C, hC, ?_, (LowerGlobalAddress_not_global _ _ _ hC).1, ?_⟩
    · rw [hop1, hcallee]
      simp [hne]
    · rw [← hres] at hC
      exact updateCallee_idem _ _ _ hC

/-- Witness of C21: a call of the global `f` with a register argument and a
stack argument. -/
theorem LowerCall_callee_operand_witness :
    ∃ Call, LowerCall.callNode entryDAG
        ⟨DAG.getEntryNode, calleeGlobal, false, false,
          [DAG.getConstant 5 MVT.i32, DAG.getConstant 6 MVT.i32]⟩ [regLoc 4, memLoc 0] = .ok Call ∧
      (∀ InVals, LowerCall entryDAG
        ⟨DAG.getEntryNode, calleeGlobal, false, false,
          [DAG.getConstant 5 MVT.i32, DAG.getConstant 6 MVT.i32]⟩ [regLoc 4, memLoc 0] [] InVals
          = .ok ⟨Call, InVals, false⟩) ∧
      Call.getOpcode = some (.j2 .Call) ∧
      ([regLoc 4, memLoc 0] = [] → Call.getOperand 1 = calleeGlobal) ∧
      ([regLoc 4, memLoc 0] ≠ [] → isaGlobalAddressSDNode calleeGlobal = true →
        ∃ Res, LowerGlobalAddress entryDAG.PointerTy calleeGlobal = .ok Res ∧
          Call.getOperand 1 = Res ∧
          isaGlobalAddressSDNode Res = false ∧
          LowerCall.updateCallee entryDAG.PointerTy Res = .ok Res) :=
  LowerCall_callee_operand entryDAG
    ⟨DAG.getEntryNode, calleeGlobal, false, false,
      [DAG.getConstant 5 MVT.i32, DAG.getConstant 6 MVT.i32]⟩ [regLoc 4, memLoc 0] rfl
    (by decide)

end J2
